import Mathlib

/-!
# Verification of the clouddrift ragged-array core (`clouddrift/ragged.py`)

This file gives a shallow embedding, over Lean lists, of the pure core of the
`ragged` module: the index translator (`rowsize_to_index`, `obs_index_to_row`),
the row unpacker and the regular/ragged conversions, the chunker, the
segmenter, the ragged apply engine, and the dataset subsetter with its
criterion evaluation.  Numeric data values are modelled as rationals (`ℚ`),
array contents are lists, 2-D arrays are lists of lists, and fallible
operations return `Except`.  Machine floating point (NaN payloads etc.) is not
modelled; equality of values is exact equality of rationals.

Theorems about the embedding settle the specification claims about the module.
-/

namespace Clouddrift

/-! ## Basic list utilities shared by all components -/

/-- `np.cumsum(np.insert(np.array(rowsize), 0, 0))`: boundary offsets of a
row-size vector, i.e. `rowsize_to_index` from the source.  Length is
`rowsize.length + 1`, starts at `0`, ends at `rowsize.sum`. -/
def rowsize_to_index : List Nat → List Nat
  | [] => [0]
  | r :: rs => 0 :: (rowsize_to_index rs).map (r + ·)

/-- `np.diff` on a rational-valued list: consecutive differences
`x[i+1] - x[i]`. -/
def npdiff (x : List ℚ) : List ℚ :=
  List.zipWith (fun a b => b - a) x x.tail

/-- `np.diff` on a natural-valued list (used on break-offset vectors, which
are non-decreasing, so natural subtraction is exact). -/
def npdiffNat : List Nat → List Nat
  | a :: b :: t => (b - a) :: npdiffNat (b :: t)
  | _ => []

/-- `np.where(bs)[0]`: the indices at which a boolean vector is `true`,
in increasing order. -/
def npwhere : List Bool → List Nat
  | [] => []
  | b :: bs => (if b then [0] else []) ++ (npwhere bs).map (· + 1)

/-- `np.split(x, rowsize_to_index(rowsize)[1:-1])` restricted to the case
`rowsize.sum = x.length`: the source's `unpack` (with `rows=None`, `axis=0`)
splits the flat array at the interior boundary offsets, yielding one piece
per row. -/
def unpack : List α → List Nat → List (List α)
  | _, [] => []
  | xs, r :: rs => xs.take r :: unpack (xs.drop r) rs

/-- Boolean-mask selection `arr[mask]` of NumPy (for equal-length inputs). -/
def maskSel (l : List α) (mask : List Bool) : List α :=
  ((l.zip mask).filter (fun p => p.2)).map (fun p => p.1)

/-- `np.repeat(vals, rowsize)`: each value repeated according to the paired
row size, concatenated in order. -/
def npRepeat (vals : List α) (rowsize : List Nat) : List α :=
  (List.zipWith (fun v r => List.replicate r v) vals rowsize).flatten

/-- Number of `true` entries of a boolean mask (the cardinality of a
dimension after boolean `isel`). -/
def countTrue (mask : List Bool) : Nat :=
  (mask.filter id).length

/-- The distinct values of a list in order of first occurrence: the order in
which `np.unique(l, return_index=True)` lists values after undoing the sort
with `np.argsort` of the first-occurrence indices. -/
def firstOccur [DecidableEq α] : List α → List α
  | [] => []
  | a :: l => a :: firstOccur (l.filter (fun b => b ≠ a))
termination_by l => l.length
decreasing_by
  simp only [List.length_cons]
  exact Nat.lt_succ_of_le (List.length_filter_le _ _)

/-! ## Segmenter (`segment`, source lines 452-548) -/

/-- The break test of `segment`: with a non-negative tolerance a break is
flagged where the consecutive difference exceeds the tolerance, with a
negative tolerance where it is below the tolerance (source lines 526-535). -/
def breakCond (tol d : ℚ) : Bool := if 0 ≤ tol then tol < d else d < tol

/-- `segment(x, tolerance)` with `rowsize=None` (source lines 531-538):
`np.diff(np.insert(np.where(exceeds_tolerance)[0] + 1, 0, 0))` followed by
appending `len(x) - sum(segment_sizes)`. -/
def segment (x : List ℚ) (tol : ℚ) : List Nat :=
  let exceeds := (npdiff x).map (breakCond tol)
  let sizes := npdiffNat (0 :: (npwhere exceeds).map (· + 1))
  sizes ++ [x.length - sizes.sum]

/-- Modelled from the spec wording for comparison: the list of break
positions, i.e. those positions `i + 1` such that `x[i+1] - x[i]` exceeds the
tolerance (or is below it for negative tolerance).  Breaks partition the index
range into contiguous segments. -/
def specBreaks (x : List ℚ) (tol : ℚ) : List Nat :=
  ((List.range (x.length - 1)).filter
    (fun i => breakCond tol (x.getD (i + 1) 0 - x.getD i 0))).map (· + 1)

/-! ### Lemmas about the segmenter -/

theorem npwhere_eq_filter_range (l : List Bool) :
    npwhere l = (List.range l.length).filter (fun i => l.getD i false) := by
  induction l with
  | nil => rfl
  | cons b bs ih =>
    cases b <;>
      simp [npwhere, ih, List.range_succ_eq_map, List.filter_cons, List.filter_map,
        Function.comp_def, Nat.succ_eq_add_one, List.getD_cons_zero, List.getD_cons_succ]

theorem npdiffNat_append_last : ∀ (l : List Nat) (a : Nat), l ≠ [] →
    npdiffNat (l ++ [a]) = npdiffNat l ++ [a - l.getLastD 0]
  | [_], _, _ => rfl
  | x :: y :: t, a, _ => by
    have ih := npdiffNat_append_last (y :: t) a (by simp)
    simp only [List.cons_append] at ih ⊢
    show (y - x) :: npdiffNat (y :: (t ++ [a])) =
      ((y - x) :: npdiffNat (y :: t)) ++ [a - (x :: y :: t).getLastD 0]
    rw [ih]
    simp [List.getLastD_cons]

/-- Telescoping sum of consecutive differences over a non-decreasing list. -/
theorem npdiffNat_cons_sum : ∀ (x : Nat) (l : List Nat), (x :: l).Chain' (· ≤ ·) →
    (npdiffNat (x :: l)).sum + x = (x :: l).getLastD 0
  | x, [], _ => by simp [npdiffNat]
  | x, y :: t, h => by
    rw [List.chain'_cons] at h
    have ih := npdiffNat_cons_sum y t h.2
    have hxy : x ≤ y := h.1
    show ((y - x) :: npdiffNat (y :: t)).sum + x = (x :: y :: t).getLastD 0
    simp only [List.sum_cons] at ih ⊢
    simp only [List.getLastD_cons] at ih ⊢
    omega

theorem getLastD_le (L : Nat) : ∀ (l : List Nat) (d : Nat), (∀ b ∈ l, b ≤ L) → d ≤ L →
    l.getLastD d ≤ L
  | [], _, _, hd => hd
  | x :: t, _, h, _ => by
    rw [List.getLastD_cons]
    exact getLastD_le L t x (fun b hb => h b (List.mem_cons_of_mem _ hb))
      (h x (List.mem_cons_self _ _))

theorem npwhere_lt_length (l : List Bool) : ∀ i ∈ npwhere l, i < l.length := by
  intro i hi
  rw [npwhere_eq_filter_range] at hi
  exact List.mem_range.mp (List.mem_of_mem_filter hi)

theorem npwhere_pairwise (l : List Bool) : (npwhere l).Pairwise (· < ·) := by
  rw [npwhere_eq_filter_range]
  exact (List.pairwise_lt_range _).filter _

/-- length of `np.diff` -/
theorem npdiff_length (x : List ℚ) : (npdiff x).length = x.length - 1 := by
  simp [npdiff, List.length_zipWith, List.length_tail]

theorem npdiff_getD (x : List ℚ) (i : Nat) (h : i < x.length - 1) :
    (npdiff x).getD i 0 = x.getD (i + 1) 0 - x.getD i 0 := by
  have h1 : i < x.length := lt_of_lt_of_le h (Nat.sub_le _ _)
  have h2 : i + 1 < x.length := by omega
  have hlen : i < (npdiff x).length := by rw [npdiff_length]; exact h
  have ht : i < x.tail.length := by rw [List.length_tail]; exact h
  rw [List.getD_eq_getElem _ _ hlen, List.getD_eq_getElem _ _ h1,
    List.getD_eq_getElem _ _ h2]
  simp only [npdiff]
  rw [List.getElem_zipWith]
  congr 1
  rw [List.getElem_tail]

theorem specBreaks_le (x : List ℚ) (tol : ℚ) : ∀ b ∈ specBreaks x tol, b ≤ x.length := by
  intro b hb
  unfold specBreaks at hb
  obtain ⟨i, hi, rfl⟩ := List.mem_map.mp hb
  have := List.mem_range.mp (List.mem_of_mem_filter hi)
  omega

theorem specBreaks_pairwise (x : List ℚ) (tol : ℚ) :
    (specBreaks x tol).Pairwise (· < ·) := by
  unfold specBreaks
  rw [List.pairwise_map]
  exact ((List.pairwise_lt_range _).filter _).imp (fun h => by omega)

theorem npwhere_map_breaks (x : List ℚ) (tol : ℚ) :
    (npwhere ((npdiff x).map (breakCond tol))).map (· + 1) = specBreaks x tol := by
  rw [npwhere_eq_filter_range]
  unfold specBreaks
  rw [List.length_map, npdiff_length]
  congr 1
  apply List.filter_congr
  intro i hi
  rw [List.mem_range] at hi
  have h1 : i < ((npdiff x).map (breakCond tol)).length := by
    rw [List.length_map, npdiff_length]; exact hi
  have h2 : i < (npdiff x).length := by rw [npdiff_length]; exact hi
  rw [List.getD_eq_getElem _ _ h1, List.getElem_map, ← List.getD_eq_getElem _ 0 h2,
    npdiff_getD x i hi]

/-- **C3.** `segment(x, tolerance)` with no `rowsize` breaks `x` exactly at the
positions `i+1` where `x[i+1]-x[i]` exceeds a non-negative tolerance (is below
a negative tolerance): the returned vector is the list of adjacent differences
of the boundary sequence `0 :: breaks ++ [len x]`, i.e. the sizes of the
resulting contiguous segments in order; it sums to `len x`; and the two
documented examples hold. -/
theorem claim3_segment_breaks (x : List ℚ) (tol : ℚ) :
    segment x tol = npdiffNat ((0 :: specBreaks x tol) ++ [x.length]) ∧
    (segment x tol).sum = x.length ∧
    segment [0, 1, 1, 1, 2, 2, 3, 3, 3, 3, 4] (1/2) = [1, 3, 2, 4, 1] ∧
    segment [0, 1, 2, 0, 1, 2] (-(1/2)) = [3, 3] := by
  have hB := npwhere_map_breaks x tol
  have hchain : (0 :: specBreaks x tol).Chain' (· ≤ ·) := by
    rw [List.chain'_cons']
    exact ⟨fun y _ => Nat.zero_le y,
      ((specBreaks_pairwise x tol).imp (fun h => le_of_lt h)).chain'⟩
  have hsum : (npdiffNat (0 :: specBreaks x tol)).sum = (0 :: specBreaks x tol).getLastD 0 := by
    have := npdiffNat_cons_sum 0 (specBreaks x tol) hchain
    omega
  have hlast : (0 :: specBreaks x tol).getLastD 0 ≤ x.length :=
    getLastD_le x.length _ 0
      (by
        intro b hb
        rcases List.mem_cons.mp hb with h | h
        · omega
        · exact specBreaks_le x tol b h)
      (Nat.zero_le _)
  have hseg : segment x tol =
      npdiffNat (0 :: specBreaks x tol) ++
        [x.length - (npdiffNat (0 :: specBreaks x tol)).sum] := by
    simp only [segment]
    rw [hB]
  refine ⟨?_, ?_,
    by norm_num [segment, npdiff, npwhere, npdiffNat, breakCond],
    by norm_num [segment, npdiff, npwhere, npdiffNat, breakCond]⟩
  · rw [hseg, npdiffNat_append_last (0 :: specBreaks x tol) x.length (by simp), hsum]
  · rw [hseg]
    simp only [List.sum_append, List.sum_cons, List.sum_nil]
    omega

/-! ## Chunker (`chunk`, source lines 163-269) -/

/-- The `align` parameter of `chunk`; `stop` models `align="end"`
(`end` is a Lean keyword).  Unrecognized alignment strings are outside the
enumeration, so the `ValueError` branch of source line 262 cannot arise. -/
inductive Align
  | start
  | middle
  | stop
deriving DecidableEq

/-- The error outcomes of `chunk`: the `ZeroDivisionError` of
`(len(x) - length) // (length - overlap)` when `length == overlap`, the
`ValueError` of `np.empty` on a negative dimension, and the NumPy broadcast
`ValueError` of a row assignment whose slice has the wrong length. -/
inductive ChunkErr
  | zeroDiv
  | negativeDim
  | broadcast
deriving DecidableEq

/-- A Python index: negative values count from the end, then the result is
clamped to `[0, len]`. -/
def pyIndex (len : Nat) (i : Int) : Nat :=
  (if i < 0 then i + len else i).toNat.min len

/-- The Python slice `x[a:b]`. -/
def pySlice (x : List α) (a b : Int) : List α :=
  (x.drop (pyIndex x.length a)).take (pyIndex x.length b - pyIndex x.length a)

/-- The claim's (and source line 251's) chunk count:
`(len(x) - length) // (length - overlap) + 1 if len(x) >= length else 0`. -/
def numChunks (L length overlap : Int) : Int :=
  if length ≤ L then (L - length).fdiv (length - overlap) + 1 else 0

/-- Source line 252: `len(x) - num_chunks*length + (num_chunks-1)*overlap`. -/
def chunkRemainder (L length overlap : Int) : Int :=
  L - numChunks L length overlap * length + (numChunks L length overlap - 1) * overlap

/-- The first-window offset selected by the alignment policy
(source lines 255-260). -/
def alignStart (L length overlap : Int) : Align → Int
  | .start => 0
  | .middle => (chunkRemainder L length overlap).fdiv 2
  | .stop => chunkRemainder L length overlap

/-- The assignment loop of `chunk` (source lines 264-267):
`res[n] = x[start:end]` with `start` advancing to `end - overlap`.  A row
assignment succeeds when the slice has exactly `length` elements, or (NumPy
broadcasting) when the slice has one element and the row is non-empty;
otherwise NumPy raises a broadcast `ValueError`. -/
def chunkLoop (x : List α) (length overlap : Int) : Int → Nat → Except ChunkErr (List (List α))
  | _, 0 => .ok []
  | start, n + 1 =>
    let row := pySlice x start (start + length)
    if row.length = length.toNat then
      (chunkLoop x length overlap (start + length - overlap) n).map (row :: ·)
    else
      match row with
      | [v] =>
        if length.toNat ≠ 0 then
          (chunkLoop x length overlap (start + length - overlap) n).map
            (List.replicate length.toNat v :: ·)
        else .error .broadcast
      | _ => .error .broadcast

/-- `chunk(x, length, overlap, align)` (source lines 251-269).  In the source
the ternary on line 251 evaluates its condition first, so the division by
zero happens only when `len(x) >= length`; `np.empty` on line 253 raises on a
negative `num_chunks` or a negative `length` before any row is written. -/
def chunk (x : List α) (length overlap : Int) (align : Align) :
    Except ChunkErr (List (List α)) :=
  let L : Int := (x.length : Int)
  if length ≤ L ∧ length = overlap then .error .zeroDiv
  else if numChunks L length overlap < 0 ∨ length < 0 then .error .negativeDim
  else chunkLoop x length overlap (alignStart L length overlap align)
    (numChunks L length overlap).toNat

/-! ### Lemmas about the chunker -/

theorem pyIndex_of_nonneg (len : Nat) (i : Int) (h0 : 0 ≤ i) (hle : i ≤ (len : Int)) :
    pyIndex len i = i.toNat := by
  unfold pyIndex
  rw [if_neg (by omega)]
  have h : i.toNat ≤ len := by omega
  simp [Nat.min_def, h]

theorem pySlice_length_of_bounds (x : List α) (a b : Int) (ha : 0 ≤ a) (hab : a ≤ b)
    (hb : b ≤ (x.length : Int)) : (pySlice x a b).length = (b - a).toNat := by
  unfold pySlice
  rw [pyIndex_of_nonneg _ _ ha (le_trans hab hb), pyIndex_of_nonneg _ _ (le_trans ha hab) hb]
  rw [List.length_take, List.length_drop]
  omega

theorem chunkLoop_full (x : List α) (length overlap : Int) (h0 : 0 ≤ length)
    (hd : 0 < length - overlap) :
    ∀ (k : Nat) (s : Int), 0 ≤ s →
      (∀ n : Nat, n < k → s + (n : Int) * (length - overlap) + length ≤ (x.length : Int)) →
      chunkLoop x length overlap s k =
        .ok ((List.range k).map (fun (n : Nat) =>
          pySlice x (s + (n : Int) * (length - overlap))
            (s + (n : Int) * (length - overlap) + length))) := by
  intro k
  induction k with
  | zero => intro s _ _; rfl
  | succ k ih =>
    intro s hs hbound
    have hrow : (pySlice x s (s + length)).length = length.toNat := by
      have h1 := hbound 0 (Nat.succ_pos k)
      rw [pySlice_length_of_bounds x s (s + length) hs (by omega) (by push_cast at h1 ⊢; omega)]
      omega
    have hrec := ih (s + length - overlap) (by omega)
      (by
        intro n hn
        have := hbound (n + 1) (by omega)
        push_cast at this ⊢
        nlinarith)
    show (if (pySlice x s (s + length)).length = length.toNat then _ else _) = _
    rw [if_pos hrow, hrec]
    simp only [Except.map, List.range_succ_eq_map, List.map_cons, List.map_map]
    congr 1
    congr 1
    · norm_num
    · apply List.map_congr_left
      intro n _
      simp only [Function.comp_apply]
      have e1 : s + length - overlap + (n : Int) * (length - overlap) =
          s + ((Nat.succ n : Nat) : Int) * (length - overlap) := by
        push_cast
        ring
      rw [e1]

/-- The window list described by the claim: consecutive windows of `length`
elements advancing by `length - overlap`, the first starting at the offset
selected by the alignment policy. -/
def chunkWindows (x : List α) (length overlap : Int) (align : Align) : List (List α) :=
  (List.range (numChunks (x.length : Int) length overlap).toNat).map (fun (n : Nat) =>
    pySlice x (alignStart (x.length : Int) length overlap align + (n : Int) * (length - overlap))
      (alignStart (x.length : Int) length overlap align + (n : Int) * (length - overlap) + length))

/-- **C4 (amended: `0 ≤ length` added).** For `len(x) ≥ length > overlap` with
`length ≥ 0`, `chunk` returns `num_chunks` windows of `length` elements each,
with `num_chunks = (len(x) - length) // (length - overlap) + 1`, consecutive
windows advancing by `length - overlap` and the first window starting at the
offset selected by the alignment policy (`0`, `remainder // 2`, or
`remainder`); zero chunks result when `len(x) < length`; and the four
documented examples hold. -/
theorem claim4_chunk_windows {α : Type} (x : List α) (length overlap : Int) (align : Align)
    (h0 : 0 ≤ length) (hov : overlap < length) :
    ((x.length : Int) < length → chunk x length overlap align = .ok []) ∧
    (length ≤ (x.length : Int) →
      chunk x length overlap align = .ok (chunkWindows x length overlap align) ∧
      (chunkWindows x length overlap align).length =
        (numChunks (x.length : Int) length overlap).toNat ∧
      ∀ w ∈ chunkWindows x length overlap align, w.length = length.toNat) ∧
    chunk ([1, 2, 3, 4, 5] : List ℤ) 2 0 .start = .ok [[1, 2], [3, 4]] ∧
    chunk ([1, 2, 3, 4, 5] : List ℤ) 2 0 .stop = .ok [[2, 3], [4, 5]] ∧
    chunk ([1, 2, 3, 4, 5, 6, 7, 8] : List ℤ) 3 0 .middle = .ok [[2, 3, 4], [5, 6, 7]] ∧
    chunk ([1, 2, 3, 4, 5] : List ℤ) 2 1 .start = .ok [[1, 2], [2, 3], [3, 4], [4, 5]] := by
  have hd : 0 < length - overlap := by omega
  refine ⟨?_, ?_, by rfl, by rfl, by rfl, by rfl⟩
  · intro hlt
    have hNC : numChunks (x.length : Int) length overlap = 0 := by
      unfold numChunks
      rw [if_neg (by omega)]
    unfold chunk
    rw [if_neg (by rintro ⟨h1, -⟩; omega), if_neg (by rw [hNC]; omega), hNC]
    rfl
  · intro hlen
    set L := (x.length : Int) with hLdef
    set q := (L - length) / (length - overlap) with hqdef
    have hq0 : 0 ≤ q := Int.ediv_nonneg (by omega) (by omega)
    have hNC : numChunks L length overlap = q + 1 := by
      unfold numChunks
      rw [if_pos hlen, Int.fdiv_eq_ediv _ (by omega)]
    have hrem : chunkRemainder L length overlap = (L - length) - q * (length - overlap) := by
      unfold chunkRemainder
      rw [hNC]
      ring
    have hremmod : chunkRemainder L length overlap = (L - length) % (length - overlap) := by
      rw [hrem, Int.emod_def, hqdef]
      ring
    have hr0 : 0 ≤ chunkRemainder L length overlap := by
      rw [hremmod]
      exact Int.emod_nonneg _ (by omega)
    have hrlt : chunkRemainder L length overlap < length - overlap := by
      rw [hremmod]
      exact Int.emod_lt_of_pos _ hd
    have hstart : 0 ≤ alignStart L length overlap align ∧
        alignStart L length overlap align ≤ chunkRemainder L length overlap := by
      cases align with
      | start => exact ⟨le_refl 0, hr0⟩
      | middle =>
        constructor
        · show 0 ≤ (chunkRemainder L length overlap).fdiv 2
          rw [Int.fdiv_eq_ediv _ (by omega)]
          exact Int.ediv_nonneg hr0 (by omega)
        · show (chunkRemainder L length overlap).fdiv 2 ≤ chunkRemainder L length overlap
          rw [Int.fdiv_eq_ediv _ (by omega)]
          exact Int.ediv_le_self _ hr0
      | stop => exact ⟨hr0, le_refl _⟩
    have hbound : ∀ n : Nat, n < (numChunks L length overlap).toNat →
        alignStart L length overlap align + (n : Int) * (length - overlap) + length ≤ L := by
      intro n hn
      rw [hNC] at hn
      have hnq : (n : Int) ≤ q := by omega
      have hmul : (n : Int) * (length - overlap) ≤ q * (length - overlap) :=
        mul_le_mul_of_nonneg_right hnq (by omega)
      linarith [hstart.2, hrem.le, hrem.ge]
    have hchunk : chunk x length overlap align =
        chunkLoop x length overlap (alignStart L length overlap align)
          (numChunks L length overlap).toNat := by
      unfold chunk
      rw [if_neg (by rintro ⟨-, h2⟩; omega), if_neg (by rw [hNC]; push_neg; omega)]
    refine ⟨?_, by simp [chunkWindows], ?_⟩
    · rw [hchunk]
      exact chunkLoop_full x length overlap h0 hd _ _ hstart.1 hbound
    · intro w hw
      obtain ⟨n, hn, rfl⟩ := List.mem_map.mp hw
      rw [List.mem_range] at hn
      simp only [← hLdef] at hn ⊢
      have hb := hbound n hn
      have hA : 0 ≤ alignStart L length overlap align + (n : Int) * (length - overlap) :=
        add_nonneg hstart.1 (mul_nonneg (Int.natCast_nonneg n) (by omega))
      rw [pySlice_length_of_bounds x _ _ hA (by omega) (by exact hb)]
      omega

/-- **C4 counterexample.**  The claim quantifies over every `length` with
`len(x) ≥ length > overlap`; for the negative length `-1` (with
`overlap = -2`) the code does not return a `(num_chunks, length)` array but
fails with the negative-dimension `ValueError` of `np.empty`. -/
theorem claim4_chunk_counterexample :
    chunk ([1, 2] : List ℤ) (-1) (-2) Align.start = .error .negativeDim := by rfl

/-- Witness: C4's amended theorem applied at `chunk([1,2,3,4,5], 2)`. -/
theorem claim4_chunk_windows_witness :
    chunk ([1, 2, 3, 4, 5] : List ℤ) 2 0 Align.start =
      .ok (chunkWindows ([1, 2, 3, 4, 5] : List ℤ) 2 0 Align.start) :=
  ((claim4_chunk_windows ([1, 2, 3, 4, 5] : List ℤ) 2 0 Align.start
    (by decide) (by decide)).2.1 (by decide)).1

theorem chunkLoop_zero_length (x : List α) (overlap : Int) :
    ∀ (n : Nat) (s : Int), chunkLoop x 0 overlap s n = .ok (List.replicate n []) := by
  intro n
  induction n with
  | zero => intro s; rfl
  | succ n ih =>
    intro s
    have hrow : pySlice x s (s + 0) = [] := by
      simp [pySlice]
    show (if (pySlice x s (s + 0)).length = (0 : Int).toNat then _ else _) = _
    rw [hrow]
    simp [ih, Except.map, List.replicate_succ]

/-- **C7 counterexample.**  With `length = 0` and `overlap = -1` the call is
not rejected at all: it returns `len(x) + 1` empty chunks. -/
theorem claim7_counterexample :
    chunk ([1] : List ℤ) 0 (-1) Align.start = .ok [[], []] := by rfl

/-- **C7 (amended).**  `chunk` does not guard `length <= 0` explicitly: when
`length = overlap` (in particular the default `overlap = 0` with
`length = 0`) every call faults with the division-by-zero condition of the
underlying arithmetic; when `length < 0` and `length ≠ overlap` the call
fails with the invalid-argument (negative-dimension) condition raised by the
array allocation, not an explicit guard; and when `length = 0 > overlap`
(e.g. `overlap = -1`) the call succeeds and returns `len(x) + 1` empty
chunks. -/
theorem claim7_chunk_unguarded (x : List ℤ) (align : Align) :
    (∀ length overlap : Int, length ≤ 0 → length = overlap →
      chunk x length overlap align = .error .zeroDiv) ∧
    (∀ length overlap : Int, length < 0 → length ≠ overlap →
      chunk x length overlap align = .error .negativeDim) ∧
    chunk x 0 (-1) align = .ok (List.replicate (x.length + 1) []) := by
  refine ⟨?_, ?_, ?_⟩
  · intro length overlap h1 h2
    unfold chunk
    rw [if_pos ⟨by have := Int.natCast_nonneg x.length; omega, h2⟩]
  · intro length overlap h1 h2
    unfold chunk
    rw [if_neg (by rintro ⟨-, h⟩; exact h2 h), if_pos (Or.inr h1)]
  · have hNC : numChunks (x.length : Int) 0 (-1) = (x.length : Int) + 1 := by
      unfold numChunks
      rw [if_pos (Int.natCast_nonneg _)]
      norm_num
    unfold chunk
    rw [if_neg (by rintro ⟨-, h⟩; exact absurd h (by decide)),
      if_neg (by rw [hNC]; push_neg; exact ⟨by omega, by decide⟩),
      hNC, chunkLoop_zero_length]
    have he : ((x.length : Int) + 1).toNat = x.length + 1 := by omega
    rw [he]

/-- Witness: C7's amended theorem applied at concrete inputs covering its
three conclusions. -/
theorem claim7_chunk_unguarded_witness :
    chunk ([5] : List ℤ) 0 0 Align.start = .error .zeroDiv ∧
    chunk ([5] : List ℤ) (-3) 0 Align.start = .error .negativeDim ∧
    chunk ([5] : List ℤ) 0 (-1) Align.start = .ok [[], []] := by
  have h := claim7_chunk_unguarded ([5] : List ℤ) Align.start
  exact ⟨h.1 0 0 (by decide) rfl, h.2.1 (-3) 0 (by decide) (by decide), h.2.2⟩

/-! ## Regular/ragged conversions (source lines 328-423) -/

/-- `ragged_to_regular(ragged, rowsize, fill_value)` (source lines 377-381):
`res = fill_value * np.ones((len(rowsize), int(max(rowsize))))`, then row `n`
receives the `n`-th unpacked row in its first `rowsize[n]` cells, the rest of
the row keeping the fill value.  `max(rowsize)` raises `ValueError` on an
empty row-size vector, modelled as `none`.  (The row assignment of source
line 380 additionally requires `sum(rowsize) == len(ragged)`; the round-trip
theorem assumes that, and the model realizes each row as the unpacked piece
padded to `max(rowsize)` cells.) -/
def ragged_to_regular (ragged : List ℚ) (rowsize : List Nat) (fill_value : ℚ) :
    Option (List (List ℚ)) :=
  if rowsize = [] then none
  else
    let maxR := rowsize.foldr Nat.max 0
    some (List.zipWith (fun row r => row ++ List.replicate (maxR - r) fill_value)
      (unpack ragged rowsize) rowsize)

/-- `regular_to_ragged(array, fill_value)` (source lines 419-423): cells equal
to the fill value are excluded; `array[valid]` flattens row-major, and
`np.sum(valid, axis=1)` counts surviving cells per row.  (The `np.isnan`
branch for a NaN fill value is the NaN-aware form of the same per-cell
equality test; in this exact rational model both branches are cell equality
with `fill_value`.) -/
def regular_to_ragged (array : List (List ℚ)) (fill_value : ℚ) :
    List ℚ × List Nat :=
  ((array.map (fun row => row.filter (fun v => v ≠ fill_value))).flatten,
   array.map (fun row => (row.filter (fun v => v ≠ fill_value)).length))

/-! ### Lemmas about the conversions -/

theorem unpack_flatten : ∀ (R : List Nat) (A : List ℚ),
    (unpack A R).flatten = A.take R.sum
  | [], A => by simp [unpack]
  | r :: rs, A => by
    simp only [unpack, List.flatten_cons, List.sum_cons, unpack_flatten rs (A.drop r)]
    rw [List.take_add]

theorem unpack_lengths : ∀ (R : List Nat) (A : List ℚ), R.sum = A.length →
    (unpack A R).map List.length = R
  | [], A, _ => by simp [unpack]
  | r :: rs, A, h => by
    simp only [List.sum_cons] at h
    simp only [unpack, List.map_cons]
    rw [unpack_lengths rs (A.drop r) (by rw [List.length_drop]; omega)]
    rw [List.length_take]
    congr 1
    omega

theorem filter_pad_eq_self (row : List ℚ) (V : ℚ) (k : Nat)
    (hrow : ∀ a ∈ row, a ≠ V) :
    (row ++ List.replicate k V).filter (fun v => v ≠ V) = row := by
  rw [List.filter_append, List.filter_eq_self.mpr (by
      intro a ha
      simpa using hrow a ha)]
  have : (List.replicate k V).filter (fun v => v ≠ V) = [] := by
    apply List.filter_eq_nil_iff.mpr
    intro a ha
    rw [List.eq_of_mem_replicate ha]
    simp
  rw [this, List.append_nil]

theorem filter_padded_rows (V : ℚ) (M : Nat) : ∀ (R : List Nat) (A : List ℚ),
    R.sum = A.length → (∀ a ∈ A, a ≠ V) →
    (List.zipWith (fun row r => row ++ List.replicate (M - r) V)
      (unpack A R) R).map (fun row => row.filter (fun v => v ≠ V)) = unpack A R
  | [], A, _, _ => by simp [unpack]
  | r :: rs, A, hsum, hV => by
    simp only [List.sum_cons] at hsum
    simp only [unpack, List.zipWith_cons_cons, List.map_cons]
    rw [filter_pad_eq_self (A.take r) V (M - r)
        (fun a ha => hV a (List.mem_of_mem_take ha)),
      filter_padded_rows V M rs (A.drop r) (by rw [List.length_drop]; omega)
        (fun a ha => hV a (List.mem_of_mem_drop ha))]

/-- **C6 counterexample.**  The claim quantifies over every row-size vector
with `sum(R) == len(A)`; for the empty row-size vector `max(rowsize)` on
source line 377 raises `ValueError`, so the round trip does not return
`(A, R)` there. -/
theorem claim6_counterexample : ragged_to_regular [] [] 0 = none := by rfl

/-- **C6 (amended: non-empty `R` added).**  For every flat array `A`,
non-empty row-size vector `R` with `sum(R) = len(A)`, and fill value `V`
occurring nowhere in `A`, `regular_to_ragged(ragged_to_regular(A, R, V), V)`
returns `(A, R)` exactly. -/
theorem claim6_regular_ragged_round_trip (A : List ℚ) (R : List Nat) (V : ℚ)
    (hR : R ≠ []) (hsum : R.sum = A.length) (hV : ∀ a ∈ A, a ≠ V) :
    (ragged_to_regular A R V).map (fun arr => regular_to_ragged arr V) = some (A, R) := by
  unfold ragged_to_regular
  rw [if_neg hR]
  simp only [Option.map_some']
  unfold regular_to_ragged
  rw [filter_padded_rows V (R.foldr Nat.max 0) R A hsum hV]
  congr 1
  congr 1
  · rw [unpack_flatten, hsum, List.take_length]
  · have h2 := filter_padded_rows V (R.foldr Nat.max 0) R A hsum hV
    calc (List.zipWith (fun row r => row ++ List.replicate (R.foldr Nat.max 0 - r) V)
          (unpack A R) R).map (fun row => (row.filter (fun v => v ≠ V)).length)
        = ((List.zipWith (fun row r => row ++ List.replicate (R.foldr Nat.max 0 - r) V)
          (unpack A R) R).map (fun row => row.filter (fun v => v ≠ V))).map List.length := by
          rw [List.map_map]; rfl
      _ = (unpack A R).map List.length := by rw [h2]
      _ = R := unpack_lengths R A hsum

/-- Witness: C6's amended theorem applied at `A = [1, 2, 3]`, `R = [2, 1]`,
`V = 0`. -/
theorem claim6_round_trip_witness :
    (ragged_to_regular [1, 2, 3] [2, 1] 0).map (fun arr => regular_to_ragged arr 0) =
      some ([1, 2, 3], [2, 1]) :=
  claim6_regular_ragged_round_trip [1, 2, 3] [2, 1] 0 (by decide) (by decide)
    (by intro a ha; fin_cases ha <;> norm_num)

/-! ## `obs_index_to_row` (source lines 857-914) -/

/-- The failure modes of `obs_index_to_row`: the non-integral-index
`ValueError` of source line 906 and the out-of-bounds `ValueError` of source
line 912. -/
inductive ObsIndexErr
  | notInteger
  | outOfBounds
deriving DecidableEq

/-- `np.searchsorted(l, v, side="right")` for a sorted (non-decreasing)
vector `l`: the number of elements `≤ v`. -/
def searchsortedRight (l : List Nat) (v : Int) : Nat :=
  (l.filter (fun (a : Nat) => decide ((a : Int) ≤ v))).length

/-- `obs_index_to_row(index, rowsize)` (source lines 894-914) on a list of
(possibly non-integral) numbers: the integrality check of line 905, then the
bounds check of line 911 against `rowsize_index[0]` and `rowsize_index[-1]`,
then `np.searchsorted(rowsize_index, index_list, side="right") - 1`. -/
def obs_index_to_row (index : List ℚ) (rowsize : List Nat) :
    Except ObsIndexErr (List Nat) :=
  if ¬ index.all (fun q => q.den == 1) then .error .notInteger
  else
    let offsets := rowsize_to_index rowsize
    if index.any (fun q => decide (q.num < ((offsets.headD 0 : Nat) : Int)) ||
        decide (((offsets.getLastD 0 : Nat) : Int) ≤ q.num)) then .error .outOfBounds
    else .ok (index.map (fun q => searchsortedRight offsets q.num - 1))

/-! ### Lemmas about the index translator -/

theorem rowsize_to_index_ne_nil (rs : List Nat) : rowsize_to_index rs ≠ [] := by
  cases rs <;> simp [rowsize_to_index]

theorem rowsize_to_index_headD (rs : List Nat) : (rowsize_to_index rs).headD 0 = 0 := by
  cases rs <;> rfl

theorem getLastD_cons_irrel (b : Nat) (t : List Nat) (a c : Nat) :
    (b :: t).getLastD a = (b :: t).getLastD c := by
  rw [List.getLastD_cons, List.getLastD_cons]

theorem getLastD_map_add (r : Nat) : ∀ (b : Nat) (t : List Nat),
    ((b :: t).map (r + ·)).getLastD 0 = r + (b :: t).getLastD 0
  | b, [] => rfl
  | b, c :: t => by
    have ih := getLastD_map_add r c t
    simp only [List.map_cons, List.getLastD_cons] at ih ⊢
    exact ih

theorem rowsize_to_index_getLastD : ∀ (rs : List Nat),
    (rowsize_to_index rs).getLastD 0 = rs.sum
  | [] => rfl
  | r :: rs => by
    have ih := rowsize_to_index_getLastD rs
    simp only [rowsize_to_index, List.sum_cons, List.getLastD_cons]
    obtain ⟨b, t, hbt⟩ : ∃ b t, rowsize_to_index rs = b :: t := by
      cases h : rowsize_to_index rs with
      | nil => exact absurd h (rowsize_to_index_ne_nil rs)
      | cons b t => exact ⟨b, t, rfl⟩
    rw [hbt] at ih ⊢
    rw [getLastD_map_add r b t, ih]

theorem rowsize_to_index_chain : ∀ (rs : List Nat),
    (rowsize_to_index rs).Chain' (· ≤ ·)
  | [] => by simp [rowsize_to_index]
  | r :: rs => by
    have ih := rowsize_to_index_chain rs
    simp only [rowsize_to_index]
    rw [List.chain'_cons']
    refine ⟨fun y _ => Nat.zero_le y, ?_⟩
    rw [List.chain'_map]
    exact ih.imp (fun h => by omega)

theorem chain_head_le_mem : ∀ (b : Nat) (t : List Nat), (b :: t).Chain' (· ≤ ·) →
    ∀ x ∈ b :: t, b ≤ x
  | b, [], _, x, hx => by
    rw [List.mem_singleton] at hx
    omega
  | b, c :: t, h, x, hx => by
    rw [List.chain'_cons] at h
    rcases List.mem_cons.mp hx with rfl | hx
    · exact le_refl x
    · exact le_trans h.1 (chain_head_le_mem c t h.2 x hx)

theorem searchsorted_bracket : ∀ (l : List Nat), l.Chain' (· ≤ ·) → ∀ (v : Int),
    l ≠ [] → ((l.headD 0 : Nat) : Int) ≤ v → v < ((l.getLastD 0 : Nat) : Int) →
    1 ≤ searchsortedRight l v ∧ searchsortedRight l v < l.length ∧
    ((l.getD (searchsortedRight l v - 1) 0 : Nat) : Int) ≤ v ∧
    v < ((l.getD (searchsortedRight l v) 0 : Nat) : Int)
  | [], _, v, hne, _, _ => absurd rfl hne
  | [a], _, v, _, hhead, hlast => by
    simp only [List.headD_cons] at hhead
    simp only [List.getLastD_cons, List.getLastD_nil] at hlast
    omega
  | a :: b :: t, hch, v, _, hhead, hlast => by
    simp only [List.headD_cons] at hhead
    rw [List.chain'_cons] at hch
    by_cases hb : ((b : Nat) : Int) ≤ v
    · have hlast2 : v < (((b :: t).getLastD 0 : Nat) : Int) := by
        rw [List.getLastD_cons] at hlast
        rw [getLastD_cons_irrel b t 0 a]
        exact hlast
      have ih := searchsorted_bracket (b :: t) hch.2 v (by simp)
        (by simpa using hb) hlast2
      have hss : searchsortedRight (a :: b :: t) v = searchsortedRight (b :: t) v + 1 := by
        unfold searchsortedRight
        rw [List.filter_cons_of_pos (by simpa using hhead)]
        simp [Nat.add_comm]
      obtain ⟨ih1, ih2, ih3, ih4⟩ := ih
      simp only [List.length_cons] at ih2 ⊢
      refine ⟨by omega, by omega, ?_, ?_⟩
      · rw [hss]
        have he : searchsortedRight (b :: t) v + 1 - 1 = (searchsortedRight (b :: t) v - 1) + 1 := by
          omega
        rw [he, List.getD_cons_succ]
        exact ih3
      · rw [hss, List.getD_cons_succ]
        exact ih4
    · have hfilter : (b :: t).filter (fun (a : Nat) => decide ((a : Int) ≤ v)) = [] := by
        apply List.filter_eq_nil_iff.mpr
        intro x hx
        have := chain_head_le_mem b t hch.2 x hx
        simp only [decide_eq_true_eq]
        omega
      have hss : searchsortedRight (a :: b :: t) v = 1 := by
        unfold searchsortedRight
        rw [List.filter_cons_of_pos (by simpa using hhead), hfilter]
        rfl
      rw [hss]
      refine ⟨le_refl 1, by simp only [List.length_cons]; omega, ?_, ?_⟩
      · simpa using hhead
      · simpa using hb

/-- **C9.** `obs_index_to_row` raises the type condition when some index is
not integral; for integral indices it raises the out-of-bounds condition
exactly when some index is below `0` or at least the total length
`sum(rowsize)`; and for in-bounds integral indices it returns one row index
per observation index, each satisfying
`offsets[row] <= index < offsets[row + 1]` for the boundary offsets. -/
theorem claim9_obs_index_to_row (index : List ℚ) (rowsize : List Nat) :
    (¬ index.all (fun q => q.den == 1) →
      obs_index_to_row index rowsize = .error .notInteger) ∧
    (index.all (fun q => q.den == 1) →
      (obs_index_to_row index rowsize = .error .outOfBounds ↔
        ∃ q ∈ index, q.num < 0 ∨ ((rowsize.sum : Nat) : Int) ≤ q.num)) ∧
    (index.all (fun q => q.den == 1) →
      (∀ q ∈ index, 0 ≤ q.num ∧ q.num < ((rowsize.sum : Nat) : Int)) →
      ∃ out, obs_index_to_row index rowsize = .ok out ∧
        out.length = index.length ∧
        ∀ k, k < index.length →
          (((rowsize_to_index rowsize).getD (out.getD k 0) 0 : Nat) : Int) ≤
            (index.getD k 0).num ∧
          (index.getD k 0).num <
            (((rowsize_to_index rowsize).getD (out.getD k 0 + 1) 0 : Nat) : Int)) := by
  have hiff : (index.any (fun q =>
      decide (q.num < (((rowsize_to_index rowsize).headD 0 : Nat) : Int)) ||
      decide ((((rowsize_to_index rowsize).getLastD 0 : Nat) : Int) ≤ q.num)) = true) ↔
      ∃ q ∈ index, q.num < 0 ∨ ((rowsize.sum : Nat) : Int) ≤ q.num := by
    rw [List.any_eq_true]
    constructor
    · rintro ⟨q, hq, hcond⟩
      refine ⟨q, hq, ?_⟩
      rw [Bool.or_eq_true, decide_eq_true_eq, decide_eq_true_eq,
        rowsize_to_index_headD, rowsize_to_index_getLastD] at hcond
      simpa using hcond
    · rintro ⟨q, hq, hcond⟩
      refine ⟨q, hq, ?_⟩
      rw [Bool.or_eq_true, decide_eq_true_eq, decide_eq_true_eq,
        rowsize_to_index_headD, rowsize_to_index_getLastD]
      simpa using hcond
  refine ⟨?_, ?_, ?_⟩
  · intro h
    simp only [obs_index_to_row]
    rw [if_pos h]
  · intro h
    simp only [obs_index_to_row]
    rw [if_neg (not_not_intro h)]
    by_cases hA : index.any (fun q =>
        decide (q.num < (((rowsize_to_index rowsize).headD 0 : Nat) : Int)) ||
        decide ((((rowsize_to_index rowsize).getLastD 0 : Nat) : Int) ≤ q.num)) = true
    · rw [if_pos hA]
      exact ⟨fun _ => hiff.mp hA, fun _ => rfl⟩
    · rw [if_neg hA]
      constructor
      · intro hcontra
        exact absurd hcontra (by simp)
      · intro hex
        exact absurd (hiff.mpr hex) hA
  · intro h hin
    simp only [obs_index_to_row]
    rw [if_neg (not_not_intro h), if_neg (by
      intro hA
      obtain ⟨q, hq, hor⟩ := hiff.mp hA
      have := hin q hq
      omega)]
    refine ⟨_, rfl, by rw [List.length_map], ?_⟩
    intro k hk
    have hkm : k < (index.map
        (fun q => searchsortedRight (rowsize_to_index rowsize) q.num - 1)).length := by
      rw [List.length_map]
      exact hk
    have hget : (index.map
        (fun q => searchsortedRight (rowsize_to_index rowsize) q.num - 1)).getD k 0 =
        searchsortedRight (rowsize_to_index rowsize) (index.getD k 0).num - 1 := by
      rw [List.getD_eq_getElem _ _ hkm, List.getElem_map, List.getD_eq_getElem _ _ hk]
    rw [hget]
    have hqmem : index.getD k 0 ∈ index := by
      rw [List.getD_eq_getElem _ _ hk]
      exact List.getElem_mem hk
    have hbr := searchsorted_bracket (rowsize_to_index rowsize)
      (rowsize_to_index_chain rowsize) (index.getD k 0).num
      (rowsize_to_index_ne_nil rowsize)
      (by rw [rowsize_to_index_headD]; push_cast; exact (hin _ hqmem).1)
      (by rw [rowsize_to_index_getLastD]; exact (hin _ hqmem).2)
    obtain ⟨h1, h2, h3, h4⟩ := hbr
    have he : searchsortedRight (rowsize_to_index rowsize) (index.getD k 0).num - 1 + 1 =
        searchsortedRight (rowsize_to_index rowsize) (index.getD k 0).num := by
      omega
    rw [he]
    exact ⟨h3, h4⟩

/-- Witness: C9's theorem applied at `rowsize = [2, 4, 3]` (total length 9)
with the out-of-bounds indices `-1` and `9`, the non-integral index `1/2`,
and the in-bounds index `5` (whose row is `1`). -/
theorem claim9_obs_index_to_row_witness :
    obs_index_to_row [(-1 : ℚ)] [2, 4, 3] = .error .outOfBounds ∧
    obs_index_to_row [(9 : ℚ)] [2, 4, 3] = .error .outOfBounds ∧
    obs_index_to_row [(⟨1, 2, by decide, by decide⟩ : ℚ)] [2, 4, 3] = .error .notInteger ∧
    ∃ out, obs_index_to_row [(5 : ℚ)] [2, 4, 3] = .ok out ∧ out.length = 1 := by
  refine ⟨?_, ?_, ?_, ?_⟩
  · exact ((claim9_obs_index_to_row [(-1 : ℚ)] [2, 4, 3]).2.1 (by decide)).mpr
      ⟨-1, List.mem_singleton_self _, Or.inl (by decide)⟩
  · exact ((claim9_obs_index_to_row [(9 : ℚ)] [2, 4, 3]).2.1 (by decide)).mpr
      ⟨9, List.mem_singleton_self _, Or.inr (by decide)⟩
  · exact (claim9_obs_index_to_row [(⟨1, 2, by decide, by decide⟩ : ℚ)] [2, 4, 3]).1
      (by decide)
  · obtain ⟨out, hout, hlen, -⟩ :=
      (claim9_obs_index_to_row [(5 : ℚ)] [2, 4, 3]).2.2 (by decide)
      (by
        intro q hq
        rw [List.mem_singleton] at hq
        subst hq
        exact ⟨by decide, by decide⟩)
    exact ⟨out, hout, hlen⟩

/-! ## Ragged apply engine (`apply_ragged`, source lines 15-160) -/

/-- A 2-D NumPy array: a list of rows.  Axis 0 indexes the outer list, axis 1
the inner lists; `len` of an array is its extent along axis 0. -/
abbrev Mat (α : Type) := List (List α)

/-- `arr.shape[axis]` of a 2-D array, for the two valid axes. -/
def extent (arr : Mat α) (axis : Fin 2) : Nat :=
  if axis = 0 then arr.length else (arr.headD []).length

/-- `np.split(arr, interior_boundaries, axis=1)`: column slices whose widths
are the row sizes. -/
def unpackCols (arr : Mat α) : List Nat → List (Mat α)
  | [] => []
  | r :: rs =>
    arr.map (fun row => row.take r) :: unpackCols (arr.map (fun row => row.drop r)) rs

/-- The source's `unpack(arr, rowsize, rows, axis)` (lines 845-854) for a 2-D
array: split along the chosen axis at the interior boundary offsets, then
select the requested rows (`none` keeps all rows, in order). -/
def unpackMat (arr : Mat α) (rowsize : List Nat) (rows : Option (List Nat)) (axis : Fin 2) :
    List (Mat α) :=
  let pieces := if axis = 0 then unpack arr rowsize else unpackCols arr rowsize
  match rows with
  | none => pieces
  | some rs => rs.map (fun i => pieces.getD i [])

/-- `np.concatenate(ms, axis=1)` for 2-D arrays: rows are joined pointwise
(NumPy requires the outer lengths to agree). -/
def matConcatCols : List (Mat α) → Mat α
  | [] => []
  | [m] => m
  | m :: ms => List.zipWith (· ++ ·) m (matConcatCols ms)

/-- `np.concatenate(ms, axis=axis)` for 2-D arrays. -/
def matConcat (axis : Fin 2) (ms : List (Mat α)) : Mat α :=
  if axis = 0 then ms.flatten else matConcatCols ms

/-- The failure modes of `apply_ragged`: the `ValueError` of source line 117
when `sum(rowsize)` disagrees with an input's extent along the ragged axis,
and the `IndexError` on an empty `arrays` list (`arrays[0]`, line 121) or on
zero rows (`res[0]`, lines 136/153). -/
inductive ApplyErr
  | sumMismatch
  | emptyInput
deriving DecidableEq

/-- The per-row argument lists of `apply_ragged` (source lines 120-121): each
input array is unpacked into row slices, and the slices are zipped
positionally across the input arrays, giving one argument list per row. -/
def raggedIter (arrays : List (Mat α)) (rowsize : List Nat) (rows : Option (List Nat))
    (axis : Fin 2) : List (List (Mat α)) :=
  let unpacked := arrays.map (fun arr => unpackMat arr rowsize rows axis)
  (List.range (unpacked.headD []).length).map (fun j => unpacked.map (fun u => u.getD j []))

/-- `apply_ragged(func, arrays, rowsize, rows=rows, axis=axis)` (source lines
15-160) for a single-output row function over 2-D arrays.  The validation
loop of lines 115-117 checks every input array before anything else; each row
result is an array (iterable), so the wrapping of line 130 is the identity;
the reassembly of lines 152-160 concatenates along `axis` when the first
row's value has more than one element, and along the leading axis
(`np.concatenate(res)`) otherwise. -/
def apply_ragged (func : List (Mat α) → Mat β) (arrays : List (Mat α))
    (rowsize : List Nat) (rows : Option (List Nat)) (axis : Fin 2) :
    Except ApplyErr (Mat β) :=
  if arrays.any (fun arr => rowsize.sum ≠ extent arr axis) then .error .sumMismatch
  else if arrays.isEmpty then .error .emptyInput
  else
    match (raggedIter arrays rowsize rows axis).map func with
    | [] => .error .emptyInput
    | v :: rest =>
      .ok (if 1 < v.length then matConcat axis (v :: rest) else (v :: rest).flatten)

/-- The reassembly of one output position of a tuple-returning function
(source lines 142-150): `result = [r[i] for r in res]`, concatenated along
`axis` when `len(result[0]) > 1` and along the leading axis otherwise. -/
def reassemblePos (axis : Fin 2) (res : List (List (Mat β))) (i : Nat) : Mat β :=
  let result := res.map (fun r => r.getD i [])
  if 1 < (result.headD []).length then matConcat axis result else result.flatten

/-- `apply_ragged` for a tuple-returning row function (source lines 136-151):
each output position `i` (of `range(len(res[0]))`) collects `r[i]` across the
rows and is reassembled independently by the same rule. -/
def apply_ragged_tuple (func : List (Mat α) → List (Mat β)) (arrays : List (Mat α))
    (rowsize : List Nat) (rows : Option (List Nat)) (axis : Fin 2) :
    Except ApplyErr (List (Mat β)) :=
  if arrays.any (fun arr => rowsize.sum ≠ extent arr axis) then .error .sumMismatch
  else if arrays.isEmpty then .error .emptyInput
  else
    match (raggedIter arrays rowsize rows axis).map func with
    | [] => .error .emptyInput
    | r0 :: rest =>
      .ok ((List.range r0.length).map (reassemblePos axis (r0 :: rest)))

/-- `segment(x, tolerance, rowsize)` with a row-size vector (source lines
539-548): the validation of line 540, then segmentation applied independently
within each row and the per-row size vectors concatenated in row order (for
`sum(rowsize) = len(x)` the slice loop of lines 542-547 visits exactly the
rows produced by `unpack`). -/
def segment_rowsize (x : List ℚ) (tol : ℚ) (rowsize : List Nat) :
    Except ApplyErr (List Nat) :=
  if rowsize.sum ≠ x.length then .error .sumMismatch
  else .ok ((unpack x rowsize).map (fun row => segment row tol)).flatten

/-! ### Lemmas about the apply engine -/

theorem unpack_length : ∀ (rowsize : List Nat) (xs : List α),
    (unpack xs rowsize).length = rowsize.length
  | [], _ => rfl
  | _ :: rs, xs => by simp [unpack, unpack_length rs]

theorem unpackCols_length : ∀ (rowsize : List Nat) (arr : Mat α),
    (unpackCols arr rowsize).length = rowsize.length
  | [], _ => rfl
  | _ :: rs, arr => by simp [unpackCols, unpackCols_length rs]

theorem unpackMat_none_length (arr : Mat α) (rowsize : List Nat) (axis : Fin 2) :
    (unpackMat arr rowsize none axis).length = rowsize.length := by
  simp only [unpackMat]
  by_cases h : axis = 0 <;> simp [h, unpack_length, unpackCols_length]

theorem raggedIter_length (arrays : List (Mat α)) (rowsize : List Nat) (axis : Fin 2)
    (hne : arrays ≠ []) :
    (raggedIter arrays rowsize none axis).length = rowsize.length := by
  obtain ⟨a, t, rfl⟩ : ∃ a t, arrays = a :: t := by
    cases arrays with
    | nil => exact absurd rfl hne
    | cons a t => exact ⟨a, t, rfl⟩
  simp [raggedIter, unpackMat_none_length]

theorem length_flatten_singletons : ∀ (l : List (List γ)),
    (∀ v ∈ l, v.length = 1) → l.flatten.length = l.length
  | [], _ => rfl
  | v :: t, h => by
    have ih := length_flatten_singletons t (fun w hw => h w (List.mem_cons_of_mem _ hw))
    have hv := h v (List.mem_cons_self _ _)
    simp only [List.flatten_cons, List.length_append, List.length_cons, ih, hv]
    omega


/-- **C1.** For every row function, input arrays and valid input (the sum of
`rowsize` equals every array's extent along `axis`, at least one row, at
least one input array), `apply_ragged` reassembles per the claimed rule: if
every row's value has length greater than one, the values are concatenated
along the configured axis; if every row's value has length one (a per-row
reduction) they are concatenated along the leading axis, yielding exactly one
output element per row regardless of the configured axis; and for a
tuple-returning function of arity `m` the same rule applies independently at
each output position. -/
theorem claim1_apply_ragged_reassembly (func : List (Mat ℚ) → Mat ℚ)
    (func2 : List (Mat ℚ) → List (Mat ℚ)) (arrays : List (Mat ℚ))
    (rowsize : List Nat) (axis : Fin 2)
    (hne : arrays ≠ []) (hrows : rowsize ≠ [])
    (hvalid : ∀ arr ∈ arrays, extent arr axis = rowsize.sum) :
    ((∀ v ∈ (raggedIter arrays rowsize none axis).map func, 1 < v.length) →
      apply_ragged func arrays rowsize none axis =
        .ok (matConcat axis ((raggedIter arrays rowsize none axis).map func))) ∧
    ((∀ v ∈ (raggedIter arrays rowsize none axis).map func, v.length = 1) →
      apply_ragged func arrays rowsize none axis =
        .ok ((raggedIter arrays rowsize none axis).map func).flatten ∧
      (((raggedIter arrays rowsize none axis).map func).flatten).length = rowsize.length) ∧
    (∀ m : Nat, (∀ row ∈ raggedIter arrays rowsize none axis, (func2 row).length = m) →
      ∃ outs, apply_ragged_tuple func2 arrays rowsize none axis = .ok outs ∧
        outs.length = m ∧
        ∀ p, p < m →
          ((∀ v ∈ (raggedIter arrays rowsize none axis).map
              (fun row => (func2 row).getD p []), 1 < v.length) →
            outs.getD p [] = matConcat axis ((raggedIter arrays rowsize none axis).map
              (fun row => (func2 row).getD p []))) ∧
          ((∀ v ∈ (raggedIter arrays rowsize none axis).map
              (fun row => (func2 row).getD p []), v.length = 1) →
            outs.getD p [] = ((raggedIter arrays rowsize none axis).map
              (fun row => (func2 row).getD p [])).flatten ∧
            (((raggedIter arrays rowsize none axis).map
              (fun row => (func2 row).getD p [])).flatten).length = rowsize.length)) := by
  have hany : (arrays.any (fun arr => rowsize.sum ≠ extent arr axis)) = false := by
    rw [List.any_eq_false]
    intro arr harr
    simp [hvalid arr harr]
  have hempty : arrays.isEmpty = false := by
    cases arrays with
    | nil => exact absurd rfl hne
    | cons a t => rfl
  have hiterlen : (raggedIter arrays rowsize none axis).length = rowsize.length :=
    raggedIter_length arrays rowsize axis hne
  obtain ⟨r, t, hrt⟩ : ∃ r t, raggedIter arrays rowsize none axis = r :: t := by
    cases h : raggedIter arrays rowsize none axis with
    | nil =>
      rw [h] at hiterlen
      exact absurd (List.length_eq_zero.mp hiterlen.symm) hrows
    | cons r t => exact ⟨r, t, rfl⟩
  have hrmem : r ∈ raggedIter arrays rowsize none axis := by
    rw [hrt]
    exact List.mem_cons_self _ _
  have happly : apply_ragged func arrays rowsize none axis =
      .ok (if 1 < (func r).length then matConcat axis (func r :: t.map func)
        else (func r :: t.map func).flatten) := by
    unfold apply_ragged
    rw [hany, hempty, hrt]
    rfl
  refine ⟨?_, ?_, ?_⟩
  · intro hbig
    have h1 : 1 < (func r).length :=
      hbig (func r) (by rw [hrt]; exact List.mem_map_of_mem func (List.mem_cons_self _ _))
    rw [happly, if_pos h1, hrt, List.map_cons]
  · intro hsmall
    have h1 : (func r).length = 1 :=
      hsmall (func r) (by rw [hrt]; exact List.mem_map_of_mem func (List.mem_cons_self _ _))
    constructor
    · rw [happly, if_neg (by omega), hrt, List.map_cons]
    · rw [length_flatten_singletons _ hsmall, List.length_map, hiterlen]
  · intro m hm
    have hrm : (func2 r).length = m := hm r hrmem
    have happly2 : apply_ragged_tuple func2 arrays rowsize none axis =
        .ok ((List.range (func2 r).length).map (reassemblePos axis (func2 r :: t.map func2))) := by
      unfold apply_ragged_tuple
      rw [hany, hempty, hrt]
      rfl
    refine ⟨_, happly2, by rw [List.length_map, List.length_range, hrm], ?_⟩
    intro p hp
    have hplen : p < ((List.range (func2 r).length).map
        (reassemblePos axis (func2 r :: t.map func2))).length := by
      rw [List.length_map, List.length_range, hrm]
      exact hp
    have hgetp : ((List.range (func2 r).length).map
        (reassemblePos axis (func2 r :: t.map func2))).getD p [] =
        reassemblePos axis (func2 r :: t.map func2) p := by
      rw [List.getD_eq_getElem _ _ hplen, List.getElem_map, List.getElem_range]
    have hresult : (func2 r :: t.map func2).map (fun l => l.getD p []) =
        (raggedIter arrays rowsize none axis).map (fun row => (func2 row).getD p []) := by
      rw [hrt, List.map_cons, List.map_cons, List.map_map]
      rfl
    have hreassemble : reassemblePos axis (func2 r :: t.map func2) p =
        (let result := (raggedIter arrays rowsize none axis).map
          (fun row => (func2 row).getD p []);
        if 1 < (result.headD []).length then matConcat axis result else result.flatten) := by
      unfold reassemblePos
      rw [hresult]
    have hheadmem : (func2 r).getD p [] ∈ (raggedIter arrays rowsize none axis).map
        (fun row => (func2 row).getD p []) := by
      rw [hrt, List.map_cons]
      exact List.mem_cons_self _ _
    have hheadval : ((raggedIter arrays rowsize none axis).map
        (fun row => (func2 row).getD p [])).headD [] = (func2 r).getD p [] := by
      rw [hrt, List.map_cons]
      rfl
    constructor
    · intro hbig
      have h1 : 1 < ((func2 r).getD p []).length := hbig _ hheadmem
      rw [hgetp, hreassemble]
      simp only []
      rw [if_pos (by rw [hheadval]; exact h1)]
    · intro hsmall
      have h1 : ((func2 r).getD p []).length = 1 := hsmall _ hheadmem
      constructor
      · rw [hgetp, hreassemble]
        simp only []
        rw [if_neg (by rw [hheadval]; omega)]
      · rw [length_flatten_singletons _ hsmall, List.length_map, hiterlen]

/-- Witness: C1's theorem applied to a 4x1 array with row sizes `[2, 2]` and
the slice-returning row function (a row-length-preserving transform), plus
its one-output tuple form. -/
theorem claim1_apply_ragged_witness :
    apply_ragged (fun rows => rows.headD []) [[[(1 : ℚ)], [2], [3], [4]]] [2, 2] none 0 =
      .ok [[(1 : ℚ)], [2], [3], [4]] ∧
    ∃ outs, apply_ragged_tuple (fun rows => [rows.headD []])
      [[[(1 : ℚ)], [2], [3], [4]]] [2, 2] none 0 = .ok outs ∧ outs.length = 1 := by
  have h := claim1_apply_ragged_reassembly (fun rows => rows.headD [])
    (fun rows => [rows.headD []]) [[[(1 : ℚ)], [2], [3], [4]]] [2, 2] 0
    (by simp) (by simp) (by decide)
  constructor
  · rw [h.1 (by decide)]
    rfl
  · obtain ⟨outs, ho, hl, -⟩ := h.2.2 1 (by decide)
    exact ⟨outs, ho, hl⟩

/-- **C8.** `apply_ragged` fails with the value-mismatch condition exactly
when `sum(rowsize)` differs from some input array's extent along the ragged
axis (so it never raises that condition when the sums agree, and produces no
result at all when they do not); and `segment` with a supplied `rowsize`
fails with the value-mismatch condition exactly when `sum(rowsize)` differs
from `len(x)`. -/
theorem claim8_value_mismatch (func : List (Mat ℚ) → Mat ℚ) (arrays : List (Mat ℚ))
    (rowsize : List Nat) (rows : Option (List Nat)) (axis : Fin 2)
    (x : List ℚ) (tol : ℚ) (rowsize2 : List Nat) :
    (apply_ragged func arrays rowsize rows axis = .error .sumMismatch ↔
      ∃ arr ∈ arrays, rowsize.sum ≠ extent arr axis) ∧
    (segment_rowsize x tol rowsize2 = .error .sumMismatch ↔
      rowsize2.sum ≠ x.length) := by
  constructor
  · by_cases hA : (arrays.any (fun arr => rowsize.sum ≠ extent arr axis)) = true
    · constructor
      · intro _
        rw [List.any_eq_true] at hA
        obtain ⟨arr, harr, hc⟩ := hA
        exact ⟨arr, harr, by simpa using hc⟩
      · intro _
        unfold apply_ragged
        rw [if_pos hA]
    · constructor
      · intro hcon
        unfold apply_ragged at hcon
        rw [if_neg hA] at hcon
        by_cases hE : arrays.isEmpty = true
        · rw [if_pos hE] at hcon
          exact absurd hcon (by simp)
        · rw [if_neg hE] at hcon
          cases hmap : (raggedIter arrays rowsize rows axis).map func with
          | nil =>
            rw [hmap] at hcon
            exact absurd hcon (by simp)
          | cons v rest =>
            rw [hmap] at hcon
            exact absurd hcon (by simp)
      · intro hex
        obtain ⟨arr, harr, hc⟩ := hex
        exact (hA (List.any_eq_true.mpr ⟨arr, harr, by simpa using hc⟩)).elim
  · by_cases hs : rowsize2.sum ≠ x.length
    · constructor
      · intro _
        exact hs
      · intro _
        unfold segment_rowsize
        rw [if_pos hs]
    · constructor
      · intro hcon
        unfold segment_rowsize at hcon
        rw [if_neg hs] at hcon
        exact absurd hcon (by simp)
      · intro hcon
        exact absurd hcon hs

/-! ## Dataset subsetter (`subset`, source lines 551-786, and `_mask_var`,
source lines 917-1005) -/

/-- The dimension on which a dataset variable lives: the row dimension, the
observation dimension, or some other dimension (touching neither). -/
inductive VDim
  | row
  | obs
  | other
deriving DecidableEq

/-- A ragged xarray dataset with the row-size, identifier, row-dimension and
observation-dimension names resolved (as `subset`'s keyword arguments
resolve them): the identifier and row-size variables are distinguished
fields, the remaining variables carry their dimension tag, and the two
dimension cardinalities (`ds.sizes`) are explicit.  Variables are
one-dimensional over a single dimension, with rational values. -/
structure RaggedDS where
  ids : List ℚ
  rowsize : List Nat
  vars : List (String × VDim × List ℚ)
  rowDimN : Nat
  obsDimN : Nat
deriving DecidableEq

/-- Well-formedness of a ragged dataset: the data-model invariants (the
identifier and row-size variables live on the row dimension, the row sizes
sum to the observation-dimension cardinality, and every variable has its
dimension's cardinality). -/
def WellFormed (ds : RaggedDS) : Prop :=
  ds.ids.length = ds.rowDimN ∧ ds.rowsize.length = ds.rowDimN ∧
  ds.rowsize.sum = ds.obsDimN ∧
  ∀ nv ∈ ds.vars, (nv.2.1 = VDim.row → nv.2.2.length = ds.rowDimN) ∧
    (nv.2.1 = VDim.obs → nv.2.2.length = ds.obsDimN)

/-- `ds[name]`: the identifier variable, the row-size variable (as numbers),
or a named data variable. -/
def RaggedDS.getVar (ds : RaggedDS) (name : String) : Option (VDim × List ℚ) :=
  if name = "id" then some (VDim.row, ds.ids)
  else if name = "rowsize" then some (VDim.row, ds.rowsize.map (fun (r : Nat) => (r : ℚ)))
  else ((ds.vars.filter (fun nv => nv.1 = name)).head?).map (fun nv => nv.2)

/-- `np.isin(name, ds.variables)`. -/
def RaggedDS.hasVar (ds : RaggedDS) (name : String) : Bool :=
  name = "id" || name = "rowsize" || ds.vars.any (fun nv => nv.1 = name)

/-- A criterion value: a `(min, max)` range, an explicit value set, a single
scalar, or a masking predicate (source lines 560-564 and 982-1004). -/
inductive Criterion
  | range (lo hi : ℚ)
  | valueSet (vs : List ℚ)
  | scalar (v : ℚ)
  | predicate (f : List (List ℚ) → List Bool)

/-- A criteria-dictionary key: a single variable name or a tuple of names. -/
inductive CKey
  | single (name : String)
  | tuple (names : List String)

/-- The failure modes of `subset`: the unknown-variable `ValueError` of line
753, the `KeyError` of `ds[key]` when the key is a bare dimension name or an
empty tuple, the dimension-mismatch `TypeError` of line 730, the list-with-
non-callable `TypeError` of line 978, the mask-length `ValueError` of line
1000, an error propagated from the nested `apply_ragged` of line 995, and the
shape `ValueError` of the row-size overwrite on line 785. -/
inductive SubsetErr
  | unknownVar
  | keyError
  | dimsMismatch
  | typeErr
  | lenMismatch
  | applyErr
  | rowsizeShape
deriving DecidableEq

/-- `apply_ragged` specialized to 1-D input arrays and a Boolean-vector
returning function, as `_mask_var` invokes it on source line 995 (with the
defaults `rows=None`, `axis=0`).  For 1-D arrays both reassembly branches of
lines 152-160 concatenate along axis 0. -/
def apply_ragged1 (func : List (List ℚ) → List Bool) (arrays : List (List ℚ))
    (rowsize : List Nat) : Except ApplyErr (List Bool) :=
  if arrays.any (fun arr => rowsize.sum ≠ arr.length) then .error .sumMismatch
  else if arrays.isEmpty then .error .emptyInput
  else
    let unpacked := arrays.map (fun arr => unpack arr rowsize)
    let iter := (List.range (unpacked.headD []).length).map
      (fun j => unpacked.map (fun u => u.getD j []))
    match iter.map func with
    | [] => .error .emptyInput
    | v :: rest => .ok ((v :: rest).flatten)

/-- `_mask_var(var, criterion, rowsize, dim_name)` (source lines 917-1005):
`vars` is the variable list (a singleton unless the key was a tuple), and
`isListVar` records whether the Python argument was a `list`, which line 978
rejects for a non-callable criterion.  A range is the inclusive
`var >= lo AND var <= hi`, an array-like is a set-membership test, a callable
is applied directly to row-dimension data and through `apply_ragged`
otherwise, then checked against the variable's length (line 999), and any
other value is a scalar equality test. -/
def mask_var (vars : List (List ℚ)) (isListVar : Bool) (crit : Criterion)
    (rowsize : List Nat) : Except SubsetErr (List Bool) :=
  match crit with
  | .range lo hi =>
    if isListVar then .error .typeErr
    else .ok ((vars.headD []).map (fun v => decide (lo ≤ v) && decide (v ≤ hi)))
  | .valueSet vs =>
    if isListVar then .error .typeErr
    else .ok ((vars.headD []).map (fun v => decide (v ∈ vs)))
  | .scalar c =>
    if isListVar then .error .typeErr
    else .ok ((vars.headD []).map (fun v => decide (v = c)))
  | .predicate f =>
    let res :=
      if (vars.headD []).length = rowsize.length then Except.ok (f vars)
      else (apply_ragged1 f vars rowsize).mapError (fun _ => SubsetErr.applyErr)
    match res with
    | .error e => .error e
    | .ok mask =>
      if (vars.headD []).length = mask.length then .ok mask
      else .error .lenMismatch

/-- Resolution of `ds[k]` for every name of a key. -/
def resolveVars (ds : RaggedDS) : List String → Option (List (VDim × List ℚ))
  | [] => some []
  | n :: ns =>
    match ds.getVar n, resolveVars ds ns with
    | some v, some vs => some (v :: vs)
    | _, _ => none

/-- One criterion-folding step of `subset` (source lines 725-753): if every
name of the key is among the dataset's variables or dimensions, resolve the
variables (`KeyError` if a name is a bare dimension, or on `criterion[0]` for
an empty tuple), require identical dimensions for a tuple key, and AND the
criterion's mask into the mask of the dimension the variables live on; a
variable on neither dimension falls through both branches and leaves the
masks unchanged. -/
def subsetStep (ds : RaggedDS) (masks : List Bool × List Bool)
    (kc : CKey × Criterion) : Except SubsetErr (List Bool × List Bool) :=
  let names := match kc.1 with
    | .single n => [n]
    | .tuple ns => ns
  let isTuple := match kc.1 with
    | .single _ => false
    | .tuple _ => true
  if names.all (fun n => ds.hasVar n || n = "rows" || n = "obs") then
    if isTuple ∧ names.isEmpty then .error .keyError
    else
      match resolveVars ds names with
      | none => .error .keyError
      | some resolved =>
        if isTuple ∧ ¬ resolved.all (fun v => v.1 = (resolved.headD (VDim.other, [])).1)
          then .error .dimsMismatch
        else
          let dim := (resolved.headD (VDim.other, [])).1
          if dim = VDim.row then
            (mask_var (resolved.map (fun v => v.2)) isTuple kc.2 ds.rowsize).map
              (fun m => (List.zipWith and masks.1 m, masks.2))
          else if dim = VDim.obs then
            (mask_var (resolved.map (fun v => v.2)) isTuple kc.2 ds.rowsize).map
              (fun m => (masks.1, List.zipWith and masks.2 m))
          else .ok masks
  else .error .unknownVar

/-- The criteria loop of `subset` (source lines 718-753): both masks start
all-`True` over their dimensions and each criterion is folded in. -/
def subsetMasks (ds : RaggedDS) (criteria : List (CKey × Criterion)) :
    Except SubsetErr (List Bool × List Bool) :=
  criteria.foldlM (subsetStep ds)
    (List.replicate ds.rowDimN true, List.replicate ds.obsDimN true)

/-- The row-exclusion pass of source lines 756-758: each observation of a row
dropped by the row mask is forced `False`.  Over the boundary offsets of the
row sizes the slice loop is the elementwise AND of the observation mask with
the row mask repeated per row size. -/
def subsetMaskObs1 (ds : RaggedDS) (maskRow maskObs : List Bool) : List Bool :=
  List.zipWith and maskObs (npRepeat maskRow ds.rowsize)

/-- `ids_with_mask_obs` (source lines 761-763):
`np.repeat(ids, rowsize)[mask_obs]` after the row-exclusion pass. -/
def subsetIdsWith (ds : RaggedDS) (maskRow maskObs : List Bool) : List ℚ :=
  maskSel (npRepeat ds.ids ds.rowsize) (subsetMaskObs1 ds maskRow maskObs)

/-- The updated row mask of source lines 764-766:
`mask_row AND in1d(ids, unique(ids_with_mask_obs))` (membership among the
surviving observations' identifiers; `np.unique` only dedups the membership
universe). -/
def subsetMaskRow1 (ds : RaggedDS) (maskRow maskObs : List Bool) : List Bool :=
  List.zipWith and maskRow
    (ds.ids.map (fun i => decide (i ∈ subsetIdsWith ds maskRow maskObs)))

/-- The observation mask after the optional `full_rows` widening of source
lines 769-771: every observation of a surviving row is reset to `True`. -/
def subsetMaskObs2 (ds : RaggedDS) (maskRow maskObs : List Bool) (fullRows : Bool) :
    List Bool :=
  if fullRows then
    List.zipWith or (subsetMaskObs1 ds maskRow maskObs)
      (npRepeat (subsetMaskRow1 ds maskRow maskObs) ds.rowsize)
  else subsetMaskObs1 ds maskRow maskObs

/-- `ids_with_mask_obs` after the optional recomputation of source lines
772-774. -/
def subsetIdsWith2 (ds : RaggedDS) (maskRow maskObs : List Bool) (fullRows : Bool) :
    List ℚ :=
  if fullRows then maskSel (npRepeat ds.ids ds.rowsize) (subsetMaskObs2 ds maskRow maskObs fullRows)
  else subsetIdsWith ds maskRow maskObs

/-- The mask-propagation and materialization phase of `subset` (source lines
755-786).  An all-`False` row mask returns the empty dataset with a warning
(lines 776-778); otherwise the boolean `isel` keeps surviving rows and
observations, and the row-size variable of the result is overwritten with the
per-identifier counts of the surviving observations in first-occurrence order
(`sorted_rowsize[np.argsort(unique_idx)]`, line 785), which raises a shape
`ValueError` when the count vector's length differs from the result's row
count. -/
def subsetMaterialize (ds : RaggedDS) (maskRow maskObs : List Bool) (fullRows : Bool) :
    Except SubsetErr RaggedDS :=
  let maskRow1 := subsetMaskRow1 ds maskRow maskObs
  let maskObs2 := subsetMaskObs2 ds maskRow maskObs fullRows
  let idsWith2 := subsetIdsWith2 ds maskRow maskObs fullRows
  if maskRow1.any (fun b => b) = false then
    .ok { ids := [], rowsize := [], vars := [], rowDimN := 0, obsDimN := 0 }
  else
    let newRowsize := (firstOccur idsWith2).map (fun v => idsWith2.count v)
    if newRowsize.length = (maskSel ds.rowsize maskRow1).length then
      .ok { ids := maskSel ds.ids maskRow1,
            rowsize := newRowsize,
            vars := ds.vars.map (fun nv => (nv.1, nv.2.1,
              match nv.2.1 with
              | VDim.row => maskSel nv.2.2 maskRow1
              | VDim.obs => maskSel nv.2.2 maskObs2
              | VDim.other => nv.2.2)),
            rowDimN := countTrue maskRow1,
            obsDimN := countTrue maskObs2 }
    else .error .rowsizeShape

/-- `subset(ds, criteria, ..., full_rows)` (source lines 551-786): fold the
criteria into the two dimension masks, then propagate and materialize. -/
def subset (ds : RaggedDS) (criteria : List (CKey × Criterion)) (fullRows : Bool) :
    Except SubsetErr RaggedDS :=
  subsetMasks ds criteria >>= fun masks =>
    subsetMaterialize ds masks.1 masks.2 fullRows

/-! ### Mask and selection lemmas -/

theorem maskSel_nil_mask (l : List α) : maskSel l [] = [] := by
  simp [maskSel]

theorem maskSel_cons_cons (a : α) (l : List α) (b : Bool) (m : List Bool) :
    maskSel (a :: l) (b :: m) = (if b then [a] else []) ++ maskSel l m := by
  cases b <;> simp [maskSel, List.zip_cons_cons, List.filter_cons]

theorem mem_maskSel_elem : ∀ (l : List α) (m : List Bool) (v : α),
    v ∈ maskSel l m → v ∈ l
  | [], m, v => by simp [maskSel]
  | a :: l, [], v => by simp [maskSel]
  | a :: l, b :: m, v => by
    rw [maskSel_cons_cons]
    intro hv
    rcases List.mem_append.mp hv with h | h
    · cases b with
      | true =>
        rw [if_pos rfl, List.mem_singleton] at h
        exact h ▸ List.mem_cons_self _ _
      | false => simp at h
    · exact List.mem_cons_of_mem _ (mem_maskSel_elem l m v h)

theorem maskSel_length_eq : ∀ (l : List α) (m : List Bool), l.length = m.length →
    (maskSel l m).length = countTrue m
  | [], [], _ => rfl
  | [], _ :: _, h => by simp at h
  | _ :: _, [], h => by simp at h
  | a :: l, b :: m, h => by
    rw [maskSel_cons_cons]
    have ih := maskSel_length_eq l m (by simpa using h)
    cases b <;> simp [countTrue, List.filter_cons, ih]

theorem countTrue_ne_zero_iff (m : List Bool) : countTrue m ≠ 0 ↔ m.any id = true := by
  unfold countTrue
  rw [List.any_eq_true]
  constructor
  · intro h
    obtain ⟨b, hb⟩ := List.exists_mem_of_length_pos (Nat.pos_of_ne_zero h)
    exact ⟨b, List.mem_of_mem_filter hb, by simpa using List.of_mem_filter hb⟩
  · rintro ⟨b, hb, hid⟩
    intro hlen
    have := List.length_eq_zero.mp hlen
    have hmem : b ∈ m.filter id := List.mem_filter.mpr ⟨hb, hid⟩
    rw [this] at hmem
    simp at hmem

theorem maskSel_replicate : ∀ (r : Nat) (i : α) (m : List Bool),
    maskSel (List.replicate r i) m = List.replicate (countTrue (m.take r)) i
  | 0, i, m => by simp [maskSel, countTrue]
  | r + 1, i, [] => by simp [maskSel, countTrue]
  | r + 1, i, b :: m => by
    rw [List.replicate_succ, maskSel_cons_cons, maskSel_replicate r i m]
    cases b <;> simp [countTrue, List.filter_cons, List.replicate_succ]

theorem maskSel_append : ∀ (l1 l2 : List α) (m : List Bool),
    maskSel (l1 ++ l2) m = maskSel l1 (m.take l1.length) ++ maskSel l2 (m.drop l1.length)
  | [], l2, m => by simp [maskSel]
  | a :: l1, l2, [] => by simp [maskSel]
  | a :: l1, l2, b :: m => by
    simp only [List.cons_append, maskSel_cons_cons, List.length_cons, List.take_succ_cons,
      List.drop_succ_cons]
    rw [maskSel_append l1 l2 m, List.append_assoc]

theorem maskSel_or_superset (l : List α) (m x : List Bool) (hmx : m.length ≤ x.length) :
    ∀ v ∈ maskSel l m, v ∈ maskSel l (List.zipWith or m x) := by
  induction l generalizing m x with
  | nil => intro v hv; simp [maskSel] at hv
  | cons a l ih =>
    intro v hv
    cases m with
    | nil => simp [maskSel] at hv
    | cons b mt =>
      cases x with
      | nil => simp at hmx
      | cons c xt =>
        rw [maskSel_cons_cons] at hv
        rw [List.zipWith_cons_cons, maskSel_cons_cons]
        rcases List.mem_append.mp hv with h | h
        · apply List.mem_append.mpr
          left
          cases b with
          | true => simpa using h
          | false => simp at h
        · exact List.mem_append.mpr (Or.inr (ih mt xt (by simpa using hmx) v h))

theorem countTrue_le_zipWith_or : ∀ (m x : List Bool), m.length ≤ x.length →
    countTrue m ≤ countTrue (List.zipWith or m x)
  | [], _, _ => Nat.zero_le _
  | _ :: _, [], h => by simp at h
  | b :: m, c :: x, h => by
    have ih := countTrue_le_zipWith_or m x (by simpa using h)
    rw [List.zipWith_cons_cons]
    cases b <;> cases c <;> simp [countTrue, List.filter_cons] at ih ⊢ <;> omega

/-- Per-row disjunction of an observation mask: whether any observation of
each row (consecutive blocks of the given sizes) is `true`. -/
def blockAny : List Nat → List Bool → List Bool
  | [], _ => []
  | r :: rs, m => (m.take r).any id :: blockAny rs (m.drop r)

theorem blockAny_length : ∀ (rs : List Nat) (m : List Bool),
    (blockAny rs m).length = rs.length
  | [], _ => rfl
  | _ :: rs, m => by simp [blockAny, blockAny_length rs]

theorem npRepeat_length : ∀ (vals : List α) (rs : List Nat), vals.length = rs.length →
    (npRepeat vals rs).length = rs.sum
  | [], [], _ => rfl
  | [], _ :: _, h => by simp at h
  | _ :: _, [], h => by simp at h
  | v :: vals, r :: rs, h => by
    simp only [npRepeat, List.zipWith_cons_cons, List.flatten_cons, List.length_append,
      List.length_replicate, List.sum_cons]
    rw [show (List.zipWith (fun v r => List.replicate r v) vals rs).flatten =
      npRepeat vals rs from rfl, npRepeat_length vals rs (by simpa using h)]

/-- Membership in a masked selection of `np.repeat(vals, rowsize)` is
membership in the selection of `vals` by the per-row disjunction of the
mask. -/
theorem mem_maskSel_npRepeat : ∀ (vals : List α) (rs : List Nat) (m : List Bool) (v : α),
    vals.length = rs.length →
    (v ∈ maskSel (npRepeat vals rs) m ↔ v ∈ maskSel vals (blockAny rs m))
  | [], [], m, v, _ => by simp [npRepeat, blockAny, maskSel]
  | [], _ :: _, _, _, h => by simp at h
  | _ :: _, [], _, _, h => by simp at h
  | i :: vals, r :: rs, m, v, h => by
    have hrep : npRepeat (i :: vals) (r :: rs) = List.replicate r i ++ npRepeat vals rs := by
      simp [npRepeat]
    have hblock : blockAny (r :: rs) m = ((m.take r).any id) :: blockAny rs (m.drop r) := rfl
    rw [hrep, maskSel_append, List.length_replicate, maskSel_replicate, hblock,
      maskSel_cons_cons, List.mem_append, List.mem_append,
      mem_maskSel_npRepeat vals rs (m.drop r) v (by simpa using h)]
    have htt : (m.take r).take r = m.take r := by
      rw [List.take_take, Nat.min_self]
    rw [htt]
    constructor
    · rintro (hl | hr)
      · left
        rw [List.mem_replicate] at hl
        rw [if_pos ((countTrue_ne_zero_iff _).mp hl.1)]
        simpa using hl.2
      · right
        exact hr
    · rintro (hl | hr)
      · left
        by_cases hc : (m.take r).any id = true
        · rw [if_pos hc, List.mem_singleton] at hl
          rw [List.mem_replicate]
          exact ⟨(countTrue_ne_zero_iff _).mpr hc, hl⟩
        · rw [if_neg hc] at hl
          simp at hl
      · right
        exact hr

theorem zipWith_and_replicate_any : ∀ (l : List Bool) (k : Nat) (b : Bool), l.length ≤ k →
    (List.zipWith and l (List.replicate k b)).any id = (l.any id && b)
  | [], _, b, _ => by simp
  | c :: l, 0, b, h => by simp at h
  | c :: l, k + 1, b, h => by
    rw [List.replicate_succ, List.zipWith_cons_cons, List.any_cons,
      zipWith_and_replicate_any l k b (by simpa using h), List.any_cons]
    cases c <;> cases b <;> simp

theorem zipWith_or_replicate_any : ∀ (l : List Bool) (k : Nat) (b : Bool),
    (List.zipWith or l (List.replicate k b)).any id = true → l.any id = true ∨ b = true
  | [], _, _, h => by simp at h
  | c :: l, 0, b, h => by simp at h
  | c :: l, k + 1, b, h => by
    have ih := zipWith_or_replicate_any l k b
    rw [List.replicate_succ, List.zipWith_cons_cons, List.any_cons] at h
    rw [List.any_cons]
    cases c with
    | true => exact Or.inl (by simp)
    | false =>
      cases b with
      | true => exact Or.inr rfl
      | false =>
        rcases ih (by simpa using h) with ha | hb
        · exact Or.inl (by simp [ha])
        · exact Or.inr hb

theorem blockAny_and_npRepeat : ∀ (rs : List Nat) (p : List Bool) (m : List Bool),
    p.length = rs.length → m.length = rs.sum →
    blockAny rs (List.zipWith and m (npRepeat p rs)) = List.zipWith and (blockAny rs m) p
  | [], [], _, _, _ => rfl
  | [], _ :: _, _, h, _ => by simp at h
  | _ :: _, [], _, h, _ => by simp at h
  | r :: rs, b :: p, m, hp, hm => by
    simp only [List.sum_cons] at hm
    have hrep : npRepeat (b :: p) (r :: rs) = List.replicate r b ++ npRepeat p rs := by
      simp [npRepeat]
    have hsplit : List.zipWith and m (List.replicate r b ++ npRepeat p rs) =
        List.zipWith and (m.take r) (List.replicate r b) ++
        List.zipWith and (m.drop r) (npRepeat p rs) := by
      conv_lhs => rw [← List.take_append_drop r m]
      rw [List.zipWith_append _ _ _ _ _ (by rw [List.length_take, List.length_replicate]; omega)]
    have hAlen : (List.zipWith and (m.take r) (List.replicate r b)).length = r := by
      rw [List.length_zipWith, List.length_take, List.length_replicate]
      omega
    rw [hrep, hsplit]
    show ((List.zipWith and (m.take r) (List.replicate r b) ++
        List.zipWith and (m.drop r) (npRepeat p rs)).take r).any id ::
      blockAny rs ((List.zipWith and (m.take r) (List.replicate r b) ++
        List.zipWith and (m.drop r) (npRepeat p rs)).drop r) =
      List.zipWith and (blockAny (r :: rs) m) (b :: p)
    rw [List.take_left' hAlen, List.drop_left' hAlen,
      blockAny_and_npRepeat rs p (m.drop r) (by simpa using hp)
        (by rw [List.length_drop]; omega),
      zipWith_and_replicate_any (m.take r) r b (by rw [List.length_take]; omega)]
    rfl

theorem blockAny_or_npRepeat_getD : ∀ (rs : List Nat) (p m : List Bool) (j : Nat),
    p.length = rs.length → m.length = rs.sum →
    (blockAny rs (List.zipWith or m (npRepeat p rs))).getD j false = true →
    (blockAny rs m).getD j false = true ∨ p.getD j false = true
  | [], [], m, j, _, _ => by simp [blockAny, npRepeat, maskSel]
  | [], _ :: _, _, _, h, _ => by simp at h
  | _ :: _, [], _, _, h, _ => by simp at h
  | r :: rs, b :: p, m, j, hp, hm => by
    simp only [List.sum_cons] at hm
    have hrep : npRepeat (b :: p) (r :: rs) = List.replicate r b ++ npRepeat p rs := by
      simp [npRepeat]
    have hsplit : List.zipWith or m (List.replicate r b ++ npRepeat p rs) =
        List.zipWith or (m.take r) (List.replicate r b) ++
        List.zipWith or (m.drop r) (npRepeat p rs) := by
      conv_lhs => rw [← List.take_append_drop r m]
      rw [List.zipWith_append _ _ _ _ _ (by rw [List.length_take, List.length_replicate]; omega)]
    have hAlen : (List.zipWith or (m.take r) (List.replicate r b)).length = r := by
      rw [List.length_zipWith, List.length_take, List.length_replicate]
      omega
    rw [hrep, hsplit]
    show (blockAny (r :: rs) (List.zipWith or (m.take r) (List.replicate r b) ++
        List.zipWith or (m.drop r) (npRepeat p rs))).getD j false = true → _
    unfold blockAny
    rw [List.take_left' hAlen, List.drop_left' hAlen]
    cases j with
    | zero =>
      intro h
      rw [List.getD_cons_zero] at h
      rcases zipWith_or_replicate_any (m.take r) r b h with ha | hb
      · exact Or.inl (by rw [List.getD_cons_zero, ha])
      · exact Or.inr (by rw [List.getD_cons_zero, hb])
    | succ j =>
      intro h
      rw [List.getD_cons_succ] at h
      rcases blockAny_or_npRepeat_getD rs p (m.drop r) j (by simpa using hp)
        (by rw [List.length_drop]; omega) h with ha | hb
      · exact Or.inl (by rw [List.getD_cons_succ]; exact ha)
      · exact Or.inr (by rw [List.getD_cons_succ]; exact hb)

theorem mem_maskSel_iff : ∀ (l : List α) (m : List Bool) (v : α),
    v ∈ maskSel l m ↔ ∃ j, ∃ hj : j < l.length, j < m.length ∧
      m.getD j false = true ∧ l.get ⟨j, hj⟩ = v
  | [], m, v => by simp [maskSel]
  | a :: l, [], v => by simp [maskSel]
  | a :: l, b :: m, v => by
    rw [maskSel_cons_cons, List.mem_append, mem_maskSel_iff l m v]
    constructor
    · rintro (h | ⟨j, hj, hjm, hget, rfl⟩)
      · cases b with
        | true =>
          rw [if_pos rfl, List.mem_singleton] at h
          exact ⟨0, by simp, by simp, by simp, h.symm⟩
        | false => simp at h
      · exact ⟨j + 1, by simpa using Nat.succ_lt_succ hj,
          by simpa using Nat.succ_lt_succ hjm, by simpa using hget, rfl⟩
    · rintro ⟨j, hj, hjm, hget, rfl⟩
      cases j with
      | zero =>
        left
        rw [List.getD_cons_zero] at hget
        rw [if_pos hget]
        simp
      | succ j =>
        right
        exact ⟨j, by simpa using hj, by simpa using hjm, by simpa using hget, rfl⟩

theorem getD_zipWith_and (x y : List Bool) (j : Nat) (hx : j < x.length) (hy : j < y.length) :
    (List.zipWith and x y).getD j false = (x.getD j false && y.getD j false) := by
  have h : j < (List.zipWith and x y).length := by
    rw [List.length_zipWith]
    omega
  rw [List.getD_eq_getElem _ _ h, List.getD_eq_getElem _ _ hx, List.getD_eq_getElem _ _ hy,
    List.getElem_zipWith]

theorem count_add_filter_ne [DecidableEq α] (b : α) : ∀ (l : List α),
    l.count b + (l.filter (fun x => x ≠ b)).length = l.length
  | [] => rfl
  | a :: l => by
    have ih := count_add_filter_ne b l
    rw [List.count_cons, List.filter_cons]
    by_cases hab : a = b <;> simp [hab] at ih ⊢ <;> omega

theorem mem_firstOccur [DecidableEq α] : ∀ (l : List α) (a : α),
    a ∈ firstOccur l ↔ a ∈ l
  | [], a => by simp [firstOccur]
  | b :: l, a => by
    rw [firstOccur]
    constructor
    · intro h
      rcases List.mem_cons.mp h with rfl | h2
      · exact List.mem_cons_self _ _
      · exact List.mem_cons_of_mem _ (List.mem_of_mem_filter
          ((mem_firstOccur (l.filter (fun x => x ≠ b)) a).mp h2))
    · intro h
      rcases List.mem_cons.mp h with rfl | h2
      · exact List.mem_cons_self _ _
      · by_cases hab : a = b
        · subst hab
          exact List.mem_cons_self _ _
        · exact List.mem_cons_of_mem _ ((mem_firstOccur (l.filter (fun x => x ≠ b)) a).mpr
            (List.mem_filter.mpr ⟨h2, by simpa using hab⟩))
termination_by l => l.length
decreasing_by
  all_goals
    simp only [List.length_cons]
    exact Nat.lt_succ_of_le (List.length_filter_le _ _)

theorem nodup_firstOccur [DecidableEq α] : ∀ (l : List α), (firstOccur l).Nodup
  | [] => by simp [firstOccur]
  | b :: l => by
    rw [firstOccur]
    refine List.nodup_cons.mpr ⟨?_, nodup_firstOccur (l.filter (fun x => x ≠ b))⟩
    intro hmem
    have := List.of_mem_filter ((mem_firstOccur _ _).mp hmem)
    simp at this
termination_by l => l.length
decreasing_by
  all_goals
    simp only [List.length_cons]
    exact Nat.lt_succ_of_le (List.length_filter_le _ _)

theorem firstOccur_count_sum [DecidableEq α] : ∀ (l : List α),
    ((firstOccur l).map (fun v => l.count v)).sum = l.length
  | [] => by simp [firstOccur]
  | b :: l => by
    rw [firstOccur, List.map_cons, List.sum_cons]
    have hcong : (firstOccur (l.filter (fun x => x ≠ b))).map (fun v => (b :: l).count v) =
        (firstOccur (l.filter (fun x => x ≠ b))).map
          (fun v => (l.filter (fun x => x ≠ b)).count v) := by
      apply List.map_congr_left
      intro v hv
      have hvne : v ≠ b := by
        have := List.of_mem_filter ((mem_firstOccur _ _).mp hv)
        simpa using this
      rw [List.count_cons_of_ne hvne, ← List.count_filter (p := fun x => x ≠ b)
        (by simpa using hvne)]
    rw [hcong, firstOccur_count_sum (l.filter (fun x => x ≠ b)), List.count_cons_self]
    have := count_add_filter_ne b l
    simp only [List.length_cons]
    omega
termination_by l => l.length
decreasing_by
  all_goals
    simp only [List.length_cons]
    exact Nat.lt_succ_of_le (List.length_filter_le _ _)

theorem dedup_length_eq_of_mem_iff [DecidableEq α] (l1 l2 : List α)
    (h : ∀ a, a ∈ l1 ↔ a ∈ l2) : l1.dedup.length = l2.dedup.length :=
  ((List.perm_ext_iff_of_nodup (List.nodup_dedup _) (List.nodup_dedup _)).mpr
    (fun a => by rw [List.mem_dedup, List.mem_dedup]; exact h a)).length_eq

theorem nodup_of_dedup_length [DecidableEq α] (l : List α)
    (h : l.dedup.length = l.length) : l.Nodup := by
  have heq := List.Sublist.eq_of_length (List.dedup_sublist l) h
  rw [← heq]
  exact List.nodup_dedup l

theorem firstOccur_length_eq_dedup [DecidableEq α] (l : List α) :
    (firstOccur l).length = l.dedup.length :=
  ((List.perm_ext_iff_of_nodup (nodup_firstOccur l) (List.nodup_dedup l)).mpr
    (fun a => by rw [mem_firstOccur, List.mem_dedup])).length_eq

theorem getD_map_decide_mem (ids S : List ℚ) (j : Nat) (hj : j < ids.length) :
    (ids.map (fun i => decide (i ∈ S))).getD j false = decide (ids.get ⟨j, hj⟩ ∈ S) := by
  have h : j < (ids.map (fun i => decide (i ∈ S))).length := by
    rw [List.length_map]
    exact hj
  rw [List.getD_eq_getElem _ _ h, List.getElem_map]
  simp [List.get_eq_getElem]

/-! ### The materialization invariant (source lines 755-786) -/

/-- For well-formed inputs, a successful materialization yields a dataset whose
row sizes sum to its observation-dimension cardinality, whose identifiers are
pairwise distinct, and whose identifiers all come from the original dataset. -/
theorem subsetMaterialize_invariant (ds : RaggedDS) (maskRow maskObs : List Bool)
    (fullRows : Bool) (res : RaggedDS)
    (hwf : WellFormed ds) (hmr : maskRow.length = ds.rowDimN)
    (hmo : maskObs.length = ds.obsDimN)
    (hres : subsetMaterialize ds maskRow maskObs fullRows = .ok res) :
    res.rowsize.sum = res.obsDimN ∧ res.ids.Nodup ∧ ∀ i ∈ res.ids, i ∈ ds.ids := by
  obtain ⟨hids, hrs, hsum, -⟩ := hwf
  simp only [subsetMaterialize] at hres
  split at hres
  · rw [Except.ok.injEq] at hres
    subst hres
    refine ⟨rfl, List.nodup_nil, ?_⟩
    intro i hi
    exact absurd hi (List.not_mem_nil i)
  · split at hres
    · rename_i h1 h2
      rw [Except.ok.injEq] at hres
      subst hres
      have hlen_mo1 : (subsetMaskObs1 ds maskRow maskObs).length = ds.rowsize.sum := by
        unfold subsetMaskObs1
        rw [List.length_zipWith, npRepeat_length maskRow ds.rowsize (by rw [hmr, hrs]),
          hmo, ← hsum, Nat.min_self]
      have hlen_P : (subsetMaskRow1 ds maskRow maskObs).length = ds.rowDimN := by
        unfold subsetMaskRow1
        rw [List.length_zipWith, List.length_map, hmr, hids, Nat.min_self]
      have hlen_mo2 : (subsetMaskObs2 ds maskRow maskObs fullRows).length = ds.rowsize.sum := by
        cases fullRows with
        | false => simpa [subsetMaskObs2] using hlen_mo1
        | true =>
          simp only [subsetMaskObs2, if_pos]
          rw [List.length_zipWith, hlen_mo1,
            npRepeat_length _ _ (by rw [hlen_P, hrs]), Nat.min_self]
      have hlen_idsRep : (npRepeat ds.ids ds.rowsize).length = ds.rowsize.sum :=
        npRepeat_length _ _ (by rw [hids, hrs])
      have hiw2eq : subsetIdsWith2 ds maskRow maskObs fullRows =
          maskSel (npRepeat ds.ids ds.rowsize) (subsetMaskObs2 ds maskRow maskObs fullRows) := by
        cases fullRows <;> simp [subsetIdsWith2, subsetMaskObs2, subsetIdsWith]
      have hA : blockAny ds.rowsize (subsetMaskObs1 ds maskRow maskObs) =
          List.zipWith and (blockAny ds.rowsize maskObs) maskRow := by
        unfold subsetMaskObs1
        exact blockAny_and_npRepeat ds.rowsize maskRow maskObs (by rw [hmr, hrs])
          (by rw [hmo, hsum])
      have hAP : ∀ j, j < ds.ids.length →
          (blockAny ds.rowsize (subsetMaskObs1 ds maskRow maskObs)).getD j false = true →
          (subsetMaskRow1 ds maskRow maskObs).getD j false = true := by
        intro j hj hblock
        have hjr : j < maskRow.length := by rw [hmr, ← hids]; exact hj
        have hjb : j < (blockAny ds.rowsize maskObs).length := by
          rw [blockAny_length, hrs, ← hids]; exact hj
        have hblock' := hblock
        rw [hA, getD_zipWith_and _ _ j hjb hjr, Bool.and_eq_true] at hblock'
        have hvin : ds.ids.get ⟨j, hj⟩ ∈ subsetIdsWith ds maskRow maskObs := by
          rw [subsetIdsWith, mem_maskSel_npRepeat ds.ids ds.rowsize _ _ (by rw [hids, hrs])]
          exact (mem_maskSel_iff _ _ _).mpr ⟨j, hj,
            by rw [blockAny_length, hrs, ← hids]; exact hj, hblock, rfl⟩
        unfold subsetMaskRow1
        rw [getD_zipWith_and _ _ j hjr (by rw [List.length_map]; exact hj),
          getD_map_decide_mem ds.ids _ j hj, Bool.and_eq_true]
        exact ⟨hblock'.2, by simpa using hvin⟩
      have hmem2 : ∀ v : ℚ, v ∈ subsetIdsWith2 ds maskRow maskObs fullRows ↔
          v ∈ maskSel ds.ids (subsetMaskRow1 ds maskRow maskObs) := by
        intro v
        constructor
        · intro hv
          rw [hiw2eq, mem_maskSel_npRepeat ds.ids ds.rowsize _ _ (by rw [hids, hrs])] at hv
          obtain ⟨j, hj, hjm, hget, hveq⟩ := (mem_maskSel_iff _ _ _).mp hv
          refine (mem_maskSel_iff _ _ _).mpr ⟨j, hj, ?_, ?_, hveq⟩
          · rw [hlen_P, ← hids]; exact hj
          · cases fullRows with
            | false =>
              apply hAP j hj
              simpa [subsetMaskObs2] using hget
            | true =>
              have hget' : (blockAny ds.rowsize
                  (List.zipWith or (subsetMaskObs1 ds maskRow maskObs)
                    (npRepeat (subsetMaskRow1 ds maskRow maskObs) ds.rowsize))).getD j false
                  = true := by
                simpa [subsetMaskObs2] using hget
              rcases blockAny_or_npRepeat_getD ds.rowsize _ _ j
                (by rw [hlen_P, hrs]) (by rw [hlen_mo1]) hget' with hca | hcb
              · exact hAP j hj hca
              · exact hcb
        · intro hv
          obtain ⟨j, hj, hjm, hget, hveq⟩ := (mem_maskSel_iff _ _ _).mp hv
          have hjr : j < maskRow.length := by rw [hmr, ← hids]; exact hj
          have hjmap : j < (ds.ids.map
              (fun i => decide (i ∈ subsetIdsWith ds maskRow maskObs))).length := by
            rw [List.length_map]; exact hj
          simp only [subsetMaskRow1] at hget
          rw [getD_zipWith_and _ _ j hjr hjmap, getD_map_decide_mem ds.ids _ j hj,
            Bool.and_eq_true] at hget
          have hvin : v ∈ subsetIdsWith ds maskRow maskObs := by
            rw [← hveq]
            simpa using hget.2
          cases fullRows with
          | false => simpa [subsetIdsWith2] using hvin
          | true =>
            rw [subsetIdsWith] at hvin
            show v ∈ subsetIdsWith2 ds maskRow maskObs true
            have he1 : subsetIdsWith2 ds maskRow maskObs true =
                maskSel (npRepeat ds.ids ds.rowsize)
                  (List.zipWith or (subsetMaskObs1 ds maskRow maskObs)
                    (npRepeat (subsetMaskRow1 ds maskRow maskObs) ds.rowsize)) := by
              simp [subsetIdsWith2, subsetMaskObs2]
            rw [he1]
            exact maskSel_or_superset _ _ _ (by
              rw [hlen_mo1, npRepeat_length _ _ (by rw [hlen_P, hrs])]) v hvin
      refine ⟨?_, ?_, ?_⟩
      · show ((firstOccur (subsetIdsWith2 ds maskRow maskObs fullRows)).map
          (fun v => (subsetIdsWith2 ds maskRow maskObs fullRows).count v)).sum =
          countTrue (subsetMaskObs2 ds maskRow maskObs fullRows)
        rw [firstOccur_count_sum, hiw2eq]
        exact maskSel_length_eq _ _ (by rw [hlen_idsRep, hlen_mo2])
      · show (maskSel ds.ids (subsetMaskRow1 ds maskRow maskObs)).Nodup
        apply nodup_of_dedup_length
        have hd : (subsetIdsWith2 ds maskRow maskObs fullRows).dedup.length =
            (maskSel ds.ids (subsetMaskRow1 ds maskRow maskObs)).dedup.length :=
          dedup_length_eq_of_mem_iff _ _ hmem2
        have hlen1 : ((firstOccur (subsetIdsWith2 ds maskRow maskObs fullRows)).map
            (fun v => (subsetIdsWith2 ds maskRow maskObs fullRows).count v)).length =
            (subsetIdsWith2 ds maskRow maskObs fullRows).dedup.length := by
          rw [List.length_map, firstOccur_length_eq_dedup]
        have hlen2 : (maskSel ds.rowsize (subsetMaskRow1 ds maskRow maskObs)).length =
            countTrue (subsetMaskRow1 ds maskRow maskObs) :=
          maskSel_length_eq _ _ (by rw [hrs, hlen_P])
        have hlen3 : (maskSel ds.ids (subsetMaskRow1 ds maskRow maskObs)).length =
            countTrue (subsetMaskRow1 ds maskRow maskObs) :=
          maskSel_length_eq _ _ (by rw [hids, hlen_P])
        rw [hlen1, hd, hlen2] at h2
        rw [h2, hlen3]
      · show ∀ i ∈ maskSel ds.ids (subsetMaskRow1 ds maskRow maskObs), i ∈ ds.ids
        intro i hi
        exact mem_maskSel_elem _ _ _ hi
    · exact absurd hres (by simp)

/-! ### Lengths of the masks produced by the criteria loop -/

/-- A successful `_mask_var` returns a mask of the first variable's length
(the maps of lines 954-982 preserve it; the explicit check of line 999
enforces it for callables). -/
theorem mask_var_length (vars : List (List ℚ)) (isListVar : Bool) (crit : Criterion)
    (rowsize : List Nat) (mask : List Bool)
    (h : mask_var vars isListVar crit rowsize = .ok mask) :
    mask.length = (vars.headD []).length := by
  cases crit with
  | range lo hi =>
    rw [mask_var] at h
    split at h
    · exact Except.noConfusion h
    · rw [Except.ok.injEq] at h
      subst h
      rw [List.length_map]
  | valueSet vs =>
    rw [mask_var] at h
    split at h
    · exact Except.noConfusion h
    · rw [Except.ok.injEq] at h
      subst h
      rw [List.length_map]
  | scalar c =>
    rw [mask_var] at h
    split at h
    · exact Except.noConfusion h
    · rw [Except.ok.injEq] at h
      subst h
      rw [List.length_map]
  | predicate f =>
    simp only [mask_var] at h
    split at h
    · exact Except.noConfusion h
    · rename_i mask' heq
      split at h
      · rename_i hlen
        rw [Except.ok.injEq] at h
        subst h
        exact hlen.symm
      · exact Except.noConfusion h

/-- Every variable `ds[name]` has its dimension's cardinality in a well-formed
dataset. -/
theorem getVar_length (ds : RaggedDS) (hwf : WellFormed ds) (n : String) (d : VDim)
    (v : List ℚ) (h : ds.getVar n = some (d, v)) :
    (d = VDim.row → v.length = ds.rowDimN) ∧ (d = VDim.obs → v.length = ds.obsDimN) := by
  obtain ⟨hids, hrs, hsum, hvars⟩ := hwf
  rw [RaggedDS.getVar] at h
  split at h
  · rw [Option.some.injEq, Prod.mk.injEq] at h
    obtain ⟨rfl, rfl⟩ := h
    exact ⟨fun _ => hids, fun hc => absurd hc (by decide)⟩
  · split at h
    · rw [Option.some.injEq, Prod.mk.injEq] at h
      obtain ⟨rfl, rfl⟩ := h
      refine ⟨fun _ => ?_, fun hc => absurd hc (by decide)⟩
      rw [List.length_map]
      exact hrs
    · cases hfl : ds.vars.filter (fun nv => nv.1 = n) with
      | nil => rw [hfl] at h; simp at h
      | cons nv t =>
        rw [hfl] at h
        simp only [List.head?_cons, Option.map_some', Option.some.injEq] at h
        have hmem : nv ∈ ds.vars :=
          List.mem_of_mem_filter (by rw [hfl]; exact List.mem_cons_self nv t)
        have hnv := hvars nv hmem
        rw [h] at hnv
        exact hnv

/-- Unfolding of `resolveVars` on a nonempty name list. -/
theorem resolveVars_cons (ds : RaggedDS) (n : String) (ns : List String)
    (res : List (VDim × List ℚ)) (h : resolveVars ds (n :: ns) = some res) :
    ∃ dv vs, ds.getVar n = some dv ∧ resolveVars ds ns = some vs ∧ res = dv :: vs := by
  rw [resolveVars] at h
  cases hg : ds.getVar n with
  | none => rw [hg] at h; simp at h
  | some dv =>
    cases hr : resolveVars ds ns with
    | none => rw [hg, hr] at h; simp at h
    | some vs =>
      rw [hg, hr] at h
      simp only [Option.some.injEq] at h
      exact ⟨dv, vs, rfl, rfl, h.symm⟩

/-- The dimension dispatch of source lines 738-751 preserves the lengths of
both masks on a well-formed dataset: the criterion's mask has the head
variable's length, which is the cardinality of the dimension it is ANDed
over. -/
theorem subsetDimBranch_lengths (ds : RaggedDS) (hwf : WellFormed ds)
    (m1 m2 : List Bool) (crit : Criterion) (isTuple : Bool) (n : String)
    (dv : VDim × List ℚ) (vs : List (VDim × List ℚ))
    (hgv : ds.getVar n = some dv)
    (m1' m2' : List Bool)
    (hl1 : m1.length = ds.rowDimN) (hl2 : m2.length = ds.obsDimN)
    (h : (if ((dv :: vs).headD (VDim.other, [])).1 = VDim.row then
            (mask_var ((dv :: vs).map (fun v => v.2)) isTuple crit ds.rowsize).map
              (fun m => (List.zipWith and m1 m, m2))
          else if ((dv :: vs).headD (VDim.other, [])).1 = VDim.obs then
            (mask_var ((dv :: vs).map (fun v => v.2)) isTuple crit ds.rowsize).map
              (fun m => (m1, List.zipWith and m2 m))
          else Except.ok (m1, m2)) = .ok (m1', m2')) :
    m1'.length = ds.rowDimN ∧ m2'.length = ds.obsDimN := by
  have hdv := getVar_length ds hwf n dv.1 dv.2 hgv
  simp only [List.headD_cons, List.map_cons] at h
  split at h
  · rename_i hdim
    cases hmv : mask_var (dv.2 :: vs.map (fun v => v.2)) isTuple crit ds.rowsize with
    | error e => rw [hmv] at h; exact Except.noConfusion h
    | ok mask =>
      rw [hmv] at h
      simp only [Except.map, Except.ok.injEq, Prod.mk.injEq] at h
      obtain ⟨hm1, hm2⟩ := h
      subst hm1
      subst hm2
      have hmask := mask_var_length _ _ _ _ _ hmv
      simp only [List.headD_cons] at hmask
      refine ⟨?_, hl2⟩
      rw [List.length_zipWith, hl1, hmask, hdv.1 hdim, Nat.min_self]
  · split at h
    · rename_i hdim1 hdim2
      cases hmv : mask_var (dv.2 :: vs.map (fun v => v.2)) isTuple crit ds.rowsize with
      | error e => rw [hmv] at h; exact Except.noConfusion h
      | ok mask =>
        rw [hmv] at h
        simp only [Except.map, Except.ok.injEq, Prod.mk.injEq] at h
        obtain ⟨hm1, hm2⟩ := h
        subst hm1
        subst hm2
        have hmask := mask_var_length _ _ _ _ _ hmv
        simp only [List.headD_cons] at hmask
        refine ⟨hl1, ?_⟩
        rw [List.length_zipWith, hl2, hmask, hdv.2 hdim2, Nat.min_self]
    · rw [Except.ok.injEq, Prod.mk.injEq] at h
      obtain ⟨hm1, hm2⟩ := h
      subst hm1
      subst hm2
      exact ⟨hl1, hl2⟩

/-- One criterion-folding step of `subset` preserves the lengths of both
masks on a well-formed dataset. -/
theorem subsetStep_lengths (ds : RaggedDS) (hwf : WellFormed ds)
    (m1 m2 : List Bool) (kc : CKey × Criterion) (m1' m2' : List Bool)
    (hl1 : m1.length = ds.rowDimN) (hl2 : m2.length = ds.obsDimN)
    (h : subsetStep ds (m1, m2) kc = .ok (m1', m2')) :
    m1'.length = ds.rowDimN ∧ m2'.length = ds.obsDimN := by
  obtain ⟨key, crit⟩ := kc
  cases key with
  | single n =>
    simp only [subsetStep] at h
    split at h
    · split at h
      · exact Except.noConfusion h
      · cases hres : resolveVars ds [n] with
        | none => rw [hres] at h; exact Except.noConfusion h
        | some resolved =>
          rw [hres] at h
          simp only [] at h
          obtain ⟨dv, vs, hgv, -, rfl⟩ := resolveVars_cons ds n [] resolved hres
          split at h
          · exact Except.noConfusion h
          · exact subsetDimBranch_lengths ds hwf m1 m2 crit false n dv vs hgv m1' m2' hl1 hl2 h
    · exact Except.noConfusion h
  | tuple ns =>
    simp only [subsetStep] at h
    split at h
    · split at h
      · exact Except.noConfusion h
      · rename_i hne
        cases ns with
        | nil => exact absurd (by simp) hne
        | cons n0 ns' =>
          cases hres : resolveVars ds (n0 :: ns') with
          | none => rw [hres] at h; exact Except.noConfusion h
          | some resolved =>
            rw [hres] at h
            simp only [] at h
            obtain ⟨dv, vs, hgv, -, rfl⟩ := resolveVars_cons ds n0 ns' resolved hres
            split at h
            · exact Except.noConfusion h
            · exact subsetDimBranch_lengths ds hwf m1 m2 crit true n0 dv vs hgv m1' m2' hl1 hl2 h
    · exact Except.noConfusion h

/-- The criteria fold preserves the lengths of both masks. -/
theorem foldl_subsetStep_lengths (ds : RaggedDS) (hwf : WellFormed ds) :
    ∀ (criteria : List (CKey × Criterion)) (m1 m2 : List Bool),
    m1.length = ds.rowDimN → m2.length = ds.obsDimN →
    ∀ m1' m2', criteria.foldlM (subsetStep ds) (m1, m2) = .ok (m1', m2') →
    m1'.length = ds.rowDimN ∧ m2'.length = ds.obsDimN
  | [], m1, m2, h1, h2, m1', m2', h => by
    rw [List.foldlM_nil] at h
    simp only [pure, Except.pure, Except.ok.injEq, Prod.mk.injEq] at h
    obtain ⟨e1, e2⟩ := h
    subst e1
    subst e2
    exact ⟨h1, h2⟩
  | kc :: rest, m1, m2, h1, h2, m1', m2', h => by
    rw [List.foldlM_cons] at h
    cases hstep : subsetStep ds (m1, m2) kc with
    | error e =>
      rw [hstep] at h
      simp only [bind, Except.bind] at h
      exact Except.noConfusion h
    | ok mid =>
      rw [hstep] at h
      simp only [bind, Except.bind] at h
      obtain ⟨mid1, mid2⟩ := mid
      obtain ⟨hm1, hm2⟩ := subsetStep_lengths ds hwf m1 m2 kc mid1 mid2 h1 h2 hstep
      exact foldl_subsetStep_lengths ds hwf rest mid1 mid2 hm1 hm2 m1' m2' h

/-- The masks produced by the criteria loop (source lines 718-753) span the
row and observation dimensions of a well-formed dataset. -/
theorem subsetMasks_lengths (ds : RaggedDS) (hwf : WellFormed ds)
    (criteria : List (CKey × Criterion)) (m1' m2' : List Bool)
    (h : subsetMasks ds criteria = .ok (m1', m2')) :
    m1'.length = ds.rowDimN ∧ m2'.length = ds.obsDimN :=
  foldl_subsetStep_lengths ds hwf criteria _ _ (List.length_replicate _ _)
    (List.length_replicate _ _) m1' m2' h

/-- **C2.** For every well-formed ragged dataset and criteria dictionary, if
`subset` returns a non-empty result then the sum of the result's row-size
variable equals the result's observation-dimension cardinality, and every
surviving row's identifier is unique and present in the original dataset. -/
theorem claim2_subset_invariants (ds : RaggedDS) (criteria : List (CKey × Criterion))
    (fullRows : Bool) (res : RaggedDS) (hwf : WellFormed ds)
    (hres : subset ds criteria fullRows = .ok res) (hne : res.ids ≠ []) :
    res.rowsize.sum = res.obsDimN ∧ res.ids.Nodup ∧ ∀ i ∈ res.ids, i ∈ ds.ids := by
  rw [subset] at hres
  cases hmasks : subsetMasks ds criteria with
  | error e =>
    rw [hmasks] at hres
    simp only [bind, Except.bind] at hres
    exact Except.noConfusion hres
  | ok masks =>
    obtain ⟨mm1, mm2⟩ := masks
    rw [hmasks] at hres
    simp only [bind, Except.bind] at hres
    obtain ⟨hm1, hm2⟩ := subsetMasks_lengths ds hwf criteria mm1 mm2 hmasks
    exact subsetMaterialize_invariant ds mm1 mm2 fullRows res hwf hm1 hm2 hres

/-- A concrete two-row dataset: identifiers `[1, 2]`, row sizes `[2, 1]`, and
one observation-dimension variable `t = [10, 11, 12]`. -/
def dsW : RaggedDS :=
  { ids := [1, 2], rowsize := [2, 1], vars := [("t", VDim.obs, [10, 11, 12])],
    rowDimN := 2, obsDimN := 3 }

/-- The criteria dictionary `{"t": range 10 10}` keeping only the first
observation. -/
def critW : List (CKey × Criterion) := [(CKey.single "t", Criterion.range 10 10)]

/-- The result of `subset dsW critW false`: only row 1 survives, with its one
matching observation. -/
def resW : RaggedDS :=
  { ids := [1], rowsize := [1], vars := [("t", VDim.obs, [10])],
    rowDimN := 1, obsDimN := 1 }

instance {ε α : Type} [DecidableEq ε] [DecidableEq α] : DecidableEq (Except ε α)
  | .error e, .error f =>
    if h : e = f then .isTrue (by rw [h]) else .isFalse (by intro hc; cases hc; exact h rfl)
  | .error _, .ok _ => .isFalse (by intro hc; cases hc)
  | .ok _, .error _ => .isFalse (by intro hc; cases hc)
  | .ok a, .ok b =>
    if h : a = b then .isTrue (by rw [h]) else .isFalse (by intro hc; cases hc; exact h rfl)

theorem subset_dsW_false : subset dsW critW false = .ok resW := by
  have hm : subsetMasks dsW critW = .ok ([true, true], [true, false, false]) := by decide
  rw [subset, hm]
  show subsetMaterialize dsW [true, true] [true, false, false] false = .ok resW
  have hfo : firstOccur (subsetIdsWith2 dsW [true, true] [true, false, false] false) = [1] := by
    have h1 : subsetIdsWith2 dsW [true, true] [true, false, false] false = [1] := by decide
    rw [h1]
    simp [firstOccur]
  simp only [subsetMaterialize]
  rw [hfo]
  decide

/-- Witness for C2: on the concrete dataset `dsW` with the range criterion
`critW`, `subset` returns the non-empty `resW`, whose row sizes sum to its
observation count and whose identifier survives uniquely from `dsW`. -/
theorem claim2_subset_invariants_witness :
    WellFormed dsW ∧
      (resW.rowsize.sum = resW.obsDimN ∧ resW.ids.Nodup ∧ ∀ i ∈ resW.ids, i ∈ dsW.ids) :=
  ⟨⟨rfl, rfl, rfl, by decide⟩,
    claim2_subset_invariants dsW critW false resW ⟨rfl, rfl, rfl, by decide⟩
      subset_dsW_false (by decide)⟩

/-- **C5.** For every well-formed dataset and criteria dictionary on which
`subset` succeeds with at least one surviving row, the result with
`full_rows=True` has an observation-dimension cardinality at least that of the
result with `full_rows=False`, and the two results select exactly the same
rows (identical identifier variables). -/
theorem claim5_full_rows (ds : RaggedDS) (criteria : List (CKey × Criterion))
    (r1 r2 : RaggedDS) (hwf : WellFormed ds)
    (h1 : subset ds criteria false = .ok r1) (h2 : subset ds criteria true = .ok r2)
    (hne : r1.ids ≠ []) :
    r1.obsDimN ≤ r2.obsDimN ∧ r2.ids = r1.ids := by
  rw [subset] at h1 h2
  cases hmasks : subsetMasks ds criteria with
  | error e =>
    rw [hmasks] at h1
    simp only [bind, Except.bind] at h1
    exact Except.noConfusion h1
  | ok masks =>
    obtain ⟨mm1, mm2⟩ := masks
    rw [hmasks] at h1 h2
    simp only [bind, Except.bind] at h1 h2
    obtain ⟨hl1, hl2⟩ := subsetMasks_lengths ds hwf criteria mm1 mm2 hmasks
    obtain ⟨hids, hrs, hsum, -⟩ := hwf
    have hlen_mo1 : (subsetMaskObs1 ds mm1 mm2).length = ds.rowsize.sum := by
      unfold subsetMaskObs1
      rw [List.length_zipWith, npRepeat_length mm1 ds.rowsize (by rw [hl1, hrs]),
        hl2, ← hsum, Nat.min_self]
    have hlen_P : (subsetMaskRow1 ds mm1 mm2).length = ds.rowDimN := by
      unfold subsetMaskRow1
      rw [List.length_zipWith, List.length_map, hl1, hids, Nat.min_self]
    simp only [subsetMaterialize] at h1 h2
    split at h1
    · rw [Except.ok.injEq] at h1
      subst h1
      exact absurd rfl hne
    · rename_i hany
      split at h2
      · rename_i hany2
        exact absurd hany2 hany
      · split at h1
        · rw [Except.ok.injEq] at h1
          subst h1
          split at h2
          · rw [Except.ok.injEq] at h2
            subst h2
            refine ⟨?_, rfl⟩
            show countTrue (subsetMaskObs2 ds mm1 mm2 false) ≤
              countTrue (subsetMaskObs2 ds mm1 mm2 true)
            have he0 : subsetMaskObs2 ds mm1 mm2 false = subsetMaskObs1 ds mm1 mm2 := by
              simp [subsetMaskObs2]
            have he1 : subsetMaskObs2 ds mm1 mm2 true =
                List.zipWith or (subsetMaskObs1 ds mm1 mm2)
                  (npRepeat (subsetMaskRow1 ds mm1 mm2) ds.rowsize) := by
              simp [subsetMaskObs2]
            rw [he0, he1]
            exact countTrue_le_zipWith_or _ _ (by
              rw [hlen_mo1, npRepeat_length _ _ (by rw [hlen_P, hrs])])
          · exact Except.noConfusion h2
        · exact Except.noConfusion h1

/-- The result of `subset dsW critW true`: the same surviving row, widened
back to both of its observations. -/
def res2W : RaggedDS :=
  { ids := [1], rowsize := [2], vars := [("t", VDim.obs, [10, 11])],
    rowDimN := 1, obsDimN := 2 }

theorem subset_dsW_true : subset dsW critW true = .ok res2W := by
  have hm : subsetMasks dsW critW = .ok ([true, true], [true, false, false]) := by decide
  rw [subset, hm]
  show subsetMaterialize dsW [true, true] [true, false, false] true = .ok res2W
  have hfo : firstOccur (subsetIdsWith2 dsW [true, true] [true, false, false] true) = [1] := by
    have h1 : subsetIdsWith2 dsW [true, true] [true, false, false] true = [1, 1] := by decide
    rw [h1]
    simp [firstOccur, List.filter_cons]
  simp only [subsetMaterialize]
  rw [hfo]
  decide

/-- Witness for C5: on `dsW` with `critW`, the `full_rows=False` result keeps
one observation, the `full_rows=True` result keeps the surviving row's two
observations, and both keep exactly row 1. -/
theorem claim5_full_rows_witness :
    resW.obsDimN ≤ res2W.obsDimN ∧ res2W.ids = resW.ids :=
  claim5_full_rows dsW critW resW res2W ⟨rfl, rfl, rfl, by decide⟩
    subset_dsW_false subset_dsW_true (by decide)

/-- A name that `ds[·]` resolves is among the dataset's variables. -/
theorem getVar_hasVar (ds : RaggedDS) (n : String) (dv : VDim × List ℚ)
    (h : ds.getVar n = some dv) : ds.hasVar n = true := by
  rw [RaggedDS.getVar] at h
  rw [RaggedDS.hasVar]
  split at h
  · rename_i h1
    simp [h1]
  · split at h
    · rename_i h1 h2
      simp [h2]
    · rename_i h1 h2
      cases hfl : ds.vars.filter (fun nv => nv.1 = n) with
      | nil => rw [hfl] at h; simp at h
      | cons nv t =>
        have hmemf : nv ∈ ds.vars.filter (fun nv => nv.1 = n) := by
          rw [hfl]; exact List.mem_cons_self nv t
        have hname := List.of_mem_filter hmemf
        have hany : ds.vars.any (fun nv => nv.1 = n) = true :=
          List.any_eq_true.mpr ⟨nv, List.mem_of_mem_filter hmemf, hname⟩
        simp [hany]

/-- A criterion whose single key resolves to a variable on neither the row
nor the observation dimension passes the known-variable check and then falls
through both mask branches of source lines 738-751, leaving the masks
unchanged and raising nothing. -/
theorem subsetStep_other (ds : RaggedDS) (n : String) (v : List ℚ) (crit : Criterion)
    (masks : List Bool × List Bool) (hv : ds.getVar n = some (VDim.other, v)) :
    subsetStep ds masks (CKey.single n, crit) = .ok masks := by
  have hhas := getVar_hasVar ds n _ hv
  have hresv : resolveVars ds [n] = some [(VDim.other, v)] := by
    simp [resolveVars, hv]
  simp only [subsetStep]
  rw [if_pos (by simp [hhas])]
  rw [if_neg (by simp)]
  rw [hresv]
  simp

/-- **C10.** For every dataset and every criterion whose key names a variable
of the dataset living on neither the row dimension nor the observation
dimension, `subset` silently ignores that criterion: inserting it anywhere in
the criteria dictionary raises no error and produces exactly the same result
as without it. -/
theorem claim10_other_dim_noop (ds : RaggedDS) (n : String) (v : List ℚ)
    (crit : Criterion) (c1 c2 : List (CKey × Criterion)) (fullRows : Bool)
    (hv : ds.getVar n = some (VDim.other, v)) :
    subset ds (c1 ++ (CKey.single n, crit) :: c2) fullRows =
      subset ds (c1 ++ c2) fullRows := by
  rw [subset, subset, subsetMasks, subsetMasks, List.foldlM_append, List.foldlM_append]
  have hstep : ∀ b : List Bool × List Bool,
      List.foldlM (subsetStep ds) b ((CKey.single n, crit) :: c2) =
      List.foldlM (subsetStep ds) b c2 := by
    intro b
    rw [List.foldlM_cons, subsetStep_other ds n v crit b hv]
    rfl
  simp only [hstep]

/-- `dsW` extended with a variable `meta` living on neither the row nor the
observation dimension. -/
def dsO : RaggedDS :=
  { ids := [1, 2], rowsize := [2, 1],
    vars := [("t", VDim.obs, [10, 11, 12]), ("meta", VDim.other, [99])],
    rowDimN := 2, obsDimN := 3 }

/-- Witness for C10: inserting a criterion on the off-dimension variable
`meta` after the `t` criterion leaves `subset` unchanged. -/
theorem claim10_other_dim_noop_witness :
    subset dsO (critW ++ (CKey.single "meta", Criterion.scalar 99) :: []) false =
      subset dsO (critW ++ []) false :=
  claim10_other_dim_noop dsO "meta" [99] (Criterion.scalar 99) critW [] false (by decide)
